import Mathlib

/-!
Verification of the knut journal engine's date, partition, period-filter,
report-aggregation and parser components against their specification.

Dates are embedded as absolute day numbers (`Int`), day 0 being January 1
of year 1 in the proleptic Gregorian calendar — the date-only fragment of
Go's `time.Time` (all times in this code base are constructed with
`date.Date(y, m, d)`, i.e. midnight UTC, so a day count is a faithful
representation; the zero `time.Time` is day 0).  The functions below are
translated from Go's `time` package (`time.Date`, `absDate`, `daysIn`,
`isLeap`, `Weekday`) and from the repository sources.
-/

namespace Knut

/-- Leap-year predicate, from Go `time.isLeap`. -/
def isLeap (year : Int) : Bool :=
  year % 4 == 0 && (year % 100 != 0 || year % 400 == 0)

/-- Go `time` package `daysBefore` table: `daysBefore m` counts the days in a
non-leap year strictly before month `m + 1` (0-based index, as in Go; every
use in the translated code stays within the 13 entries of Go's array). -/
def daysBefore (m : Int) : Int :=
  [0, 31, 59, 90, 120, 151, 181, 212, 243, 273, 304, 334, 365].getD m.toNat 0

/-- Number of days in the given month (1-based) of the given year, from Go
`time.daysIn`. -/
def daysIn (m year : Int) : Int :=
  if m = 2 ∧ isLeap year = true then 29 else daysBefore m - daysBefore (m - 1)

/-- Days from 0001-01-01 to January 1 of `year` in the proleptic Gregorian
calendar; the re-based form of Go `time.daysSinceEpoch`. -/
def daysBeforeYear (year : Int) : Int :=
  365 * (year - 1) + (year - 1) / 4 - (year - 1) / 100 + (year - 1) / 400

/-- Day number of `time.Date(year, month, day, 0, 0, 0, 0, time.UTC)`:
Go normalizes the month into `[Jan, Dec]` (floor division semantics) and
adds the day offset unchecked, so out-of-range month and day values roll
over. -/
def dateToAbs (year month day : Int) : Int :=
  let m0 := month - 1
  let y := year + m0 / 12
  let mi := m0 % 12
  daysBeforeYear y + daysBefore mi +
    (if isLeap y = true ∧ 2 ≤ mi then 1 else 0) + (day - 1)

theorem dB0 : daysBefore 0 = 0 := by decide
theorem dB1 : daysBefore 1 = 31 := by decide
theorem dB2 : daysBefore 2 = 59 := by decide
theorem dB3 : daysBefore 3 = 90 := by decide
theorem dB4 : daysBefore 4 = 120 := by decide
theorem dB5 : daysBefore 5 = 151 := by decide
theorem dB6 : daysBefore 6 = 181 := by decide
theorem dB7 : daysBefore 7 = 212 := by decide
theorem dB8 : daysBefore 8 = 243 := by decide
theorem dB9 : daysBefore 9 = 273 := by decide
theorem dB10 : daysBefore 10 = 304 := by decide
theorem dB11 : daysBefore 11 = 334 := by decide
theorem dB12 : daysBefore 12 = 365 := by decide

/-- Go `time.absoluteZeroYear`. -/
def absoluteZeroYear : Int := -292277022399

/-- Days from January 1 of `absoluteZeroYear` to 0001-01-01: exactly
730692556 four-hundred-year Gregorian cycles of 146097 days each. -/
def absoluteOffset : Int := 730692556 * 146097

/-- Year-extraction phase of Go `time.absDate`: from a day count since
`absoluteZeroYear`, cut off 400-year, 100-year, 4-year cycles and single
years (with Go's `n -= n >> 2` boundary corrections) to obtain the year
and the 0-based day of year. -/
def absYear (a : Int) : Int × Int :=
  let n400 := a / 146097
  let y0 := 400 * n400
  let d0 := a - 146097 * n400
  let n100 := d0 / 36524
  let n100c := n100 - n100 / 4
  let y1 := y0 + 100 * n100c
  let d1 := d0 - 36524 * n100c
  let n4 := d1 / 1461
  let y2 := y1 + 4 * n4
  let d2 := d1 - 1461 * n4
  let n1 := d2 / 365
  let n1c := n1 - n1 / 4
  let y3 := y2 + n1c
  let d3 := d2 - 365 * n1c
  (y3 + absoluteZeroYear, d3)

/-- Month/day extraction of Go `time.absDate` (the path taken for a
non-leap year, or for a leap year after the February-29 adjustment):
estimate the 0-based month as `day / 31` and correct by one using the
`daysBefore` table. -/
def mkMonthDay (year day : Int) : Int × Int × Int :=
  let month := day / 31
  if daysBefore (month + 1) ≤ day then
    (year, month + 2, day - daysBefore (month + 1) + 1)
  else
    (year, month + 1, day - daysBefore month + 1)

/-- Go `time.absDate` (with `full = true`): day count since
`absoluteZeroYear` to `(year, month, day)`, handling February 29. -/
def absDate (a : Int) : Int × Int × Int :=
  let yd := absYear a
  let year := yd.1
  let yday := yd.2
  if isLeap year = true then
    if 59 < yday then mkMonthDay year (yday - 1)
    else if yday = 59 then (year, 2, 29)
    else mkMonthDay year yday
  else mkMonthDay year yday

/-- Decode a day number (since 0001-01-01) into `(year, month, day)`. -/
def absToDate (n : Int) : Int × Int × Int :=
  absDate (n + absoluteOffset)

/-- Go `Time.Year()`. -/
def Year (n : Int) : Int := (absToDate n).1

/-- Go `Time.Month()` (as its numeric value 1–12). -/
def Month (n : Int) : Int := (absToDate n).2.1

/-- Go `Time.Day()`. -/
def Day (n : Int) : Int := (absToDate n).2.2

/-- Go `Time.Weekday()` (`0 = Sunday`): day 0, January 1 of year 1, was a
Monday. -/
def weekday (n : Int) : Int := (n + 1) % 7

/-- Go `Time.AddDate(years, months, days)`: decode, offset the fields,
re-normalize through `time.Date`. -/
def AddDate (t years months days : Int) : Int :=
  dateToAbs (Year t + years) (Month t + months) (Day t + days)

theorem dBY_split (c k : Int) (hk : 0 ≤ k) (hk2 : k ≤ 399) :
    daysBeforeYear (400 * c + k + absoluteZeroYear) =
      146097 * c - absoluteOffset + (365 * k + k / 4 - k / 100) := by
  unfold daysBeforeYear absoluteZeroYear absoluteOffset
  omega

theorem absYear_spec (a : Int) :
    ∃ c k, 0 ≤ k ∧ k ≤ 399 ∧
      (absYear a).1 = 400 * c + k + absoluteZeroYear ∧
      0 ≤ (absYear a).2 ∧ (absYear a).2 ≤ 365 ∧
      ((absYear a).2 = 365 → isLeap (absYear a).1 = true) ∧
      146097 * c + (365 * k + k / 4 - k / 100) + (absYear a).2 = a := by
  unfold absYear
  simp only []
  set n400 := a / 146097 with hn400
  set d0 := a - 146097 * n400 with hd0
  set n100 := d0 / 36524 with hn100
  set n100c := n100 - n100 / 4 with hn100c
  set d1 := d0 - 36524 * n100c with hd1
  set n4 := d1 / 1461 with hn4
  set d2 := d1 - 1461 * n4 with hd2
  set n1 := d2 / 365 with hn1
  set n1c := n1 - n1 / 4 with hn1c
  set d3 := d2 - 365 * n1c with hd3
  have hdoe : 0 ≤ d0 ∧ d0 ≤ 146096 := by omega
  have h100 : 0 ≤ n100c ∧ n100c ≤ 3 ∧ 0 ≤ d1 ∧ d1 ≤ 36524 ∧ (d1 = 36524 → n100c = 3) := by
    omega
  have h4 : 0 ≤ n4 ∧ n4 ≤ 24 ∧ 0 ≤ d2 ∧ d2 ≤ 1460 ∧ (d2 = 1460 → n4 = 24 → d1 = 36524) := by
    omega
  have h1 : 0 ≤ n1c ∧ n1c ≤ 3 ∧ 0 ≤ d3 ∧ d3 ≤ 365 ∧ (d3 = 365 → n1c = 3 ∧ d2 = 1460) := by
    omega
  have hq : (100 * n100c + 4 * n4 + n1c) / 4 = 25 * n100c + n4 ∧
      (100 * n100c + 4 * n4 + n1c) / 100 = n100c := by omega
  refine ⟨n400, 100 * n100c + 4 * n4 + n1c, by omega, by omega, by omega, by omega, by omega,
    ?_, by omega⟩
  intro h365
  have hn1c3 : n1c = 3 ∧ d2 = 1460 := h1.2.2.2.2 h365
  simp only [isLeap, Bool.and_eq_true, beq_iff_eq, Bool.or_eq_true, bne_iff_ne, ne_eq,
    decide_eq_true_eq]
  by_cases hc : n4 = 24
  · have hd1e : d1 = 36524 := h4.2.2.2.2 hn1c3.2 hc
    have hy3 : n100c = 3 := h100.2.2.2.2 hd1e
    constructor
    · simp only [absoluteZeroYear]; omega
    · simp only [absoluteZeroYear]; omega
  · constructor
    · simp only [absoluteZeroYear]; omega
    · simp only [absoluteZeroYear]; omega

theorem mkMonthDay_spec (year day y' m' d' : Int) (h0 : 0 ≤ day) (h1 : day ≤ 364)
    (hM : mkMonthDay year day = (y', m', d')) :
    y' = year ∧ 1 ≤ m' ∧ m' ≤ 12 ∧ 1 ≤ d' ∧
      d' ≤ daysBefore m' - daysBefore (m' - 1) ∧
      daysBefore (m' - 1) + d' - 1 = day ∧
      (59 ≤ day → 3 ≤ m') ∧ (day ≤ 58 → m' ≤ 2) := by
  unfold mkMonthDay at hM
  simp only [] at hM
  have hr : 0 ≤ day / 31 ∧ day / 31 ≤ 11 ∧ 31 * (day / 31) ≤ day ∧ day ≤ 31 * (day / 31) + 30 := by
    omega
  obtain ⟨ha, hb, hc, hd⟩ := hr
  set m0 := day / 31 with hm0
  clear hm0
  split_ifs at hM with hsp <;>
    simp only [Prod.mk.injEq] at hM <;>
    obtain ⟨hy, hm, hdd⟩ := hM <;>
    subst hy <;> subst hm <;> subst hdd <;>
    interval_cases m0 <;>
    (norm_num [dB0, dB1, dB2, dB3, dB4, dB5, dB6, dB7, dB8, dB9, dB10, dB11, dB12] at hsp ⊢) <;> omega

theorem dateToAbs_of_valid (y m d : Int) (h1 : 1 ≤ m) (h2 : m ≤ 12) :
    dateToAbs y m d = daysBeforeYear y + daysBefore (m - 1) +
      (if isLeap y = true ∧ 3 ≤ m then 1 else 0) + (d - 1) := by
  unfold dateToAbs
  simp only []
  have e1 : (m - 1) / 12 = 0 := by omega
  have e2 : (m - 1) % 12 = m - 1 := by omega
  rw [e1, e2]
  simp only [add_zero]
  have hiff : (isLeap y = true ∧ 2 ≤ m - 1) ↔ (isLeap y = true ∧ 3 ≤ m) := by
    constructor <;> (rintro ⟨hl, hx⟩; exact ⟨hl, by omega⟩)
  rw [if_congr hiff rfl rfl]

theorem absToDate_spec (n y m d : Int) (h : absToDate n = (y, m, d)) :
    1 ≤ m ∧ m ≤ 12 ∧ 1 ≤ d ∧ d ≤ daysIn m y ∧ dateToAbs y m d = n := by
  obtain ⟨c, k, hk0, hk1, hyear, hyd0, hyd1, hleap365, hsum⟩ := absYear_spec (n + absoluteOffset)
  obtain ⟨Y, D, hA⟩ : ∃ p q, absYear (n + absoluteOffset) = (p, q) := ⟨_, _, rfl⟩
  rw [hA] at hyear hyd0 hyd1 hleap365 hsum
  simp only [] at hyear hyd0 hyd1 hleap365 hsum
  have hdby : daysBeforeYear Y + D = n := by
    rw [hyear, dBY_split c k hk0 hk1]
    omega
  have hdb12 : daysBefore 1 = 31 ∧ daysBefore 2 = 59 ∧ daysBefore 0 = 0 := by
    norm_num [dB0, dB1, dB2, dB3, dB4, dB5, dB6, dB7, dB8, dB9, dB10, dB11, dB12]
  unfold absToDate absDate at h
  rw [hA] at h
  simp only [] at h
  by_cases hL : isLeap Y = true
  · rw [if_pos hL] at h
    by_cases h59 : 59 < D
    · rw [if_pos h59] at h
      obtain ⟨hy, hm1, hm2, hd1, hd2, heq, h59m, h58m⟩ :=
        mkMonthDay_spec Y (D - 1) y m d (by omega) (by omega) h
      subst hy
      have hm3 : 3 ≤ m := h59m (by omega)
      refine ⟨hm1, hm2, hd1, ?_, ?_⟩
      · simp only [daysIn]
        split_ifs with hsp
        · omega
        · exact hd2
      · rw [dateToAbs_of_valid _ _ _ hm1 hm2]
        rw [if_pos ⟨hL, hm3⟩]
        omega
    · rw [if_neg h59] at h
      by_cases hD59 : D = 59
      · rw [if_pos hD59] at h
        simp only [Prod.mk.injEq] at h
        obtain ⟨hy, hm, hdd⟩ := h
        subst hy
        subst hm
        subst hdd
        refine ⟨by norm_num, by norm_num, by norm_num, ?_, ?_⟩
        · simp only [daysIn]
          split_ifs with hsp
          · norm_num
          · exact absurd ⟨by trivial, hL⟩ hsp
        · rw [dateToAbs_of_valid _ _ _ (by norm_num) (by norm_num)]
          rw [if_neg (by rintro ⟨_, hx⟩; omega)]
          norm_num [dB0, dB1, dB2, dB3, dB4, dB5, dB6, dB7, dB8, dB9, dB10, dB11, dB12]
          omega
      · rw [if_neg hD59] at h
        obtain ⟨hy, hm1, hm2, hd1, hd2, heq, h59m, h58m⟩ :=
          mkMonthDay_spec Y D y m d hyd0 (by omega) h
        subst hy
        have hm3 : m ≤ 2 := h58m (by omega)
        refine ⟨hm1, hm2, hd1, ?_, ?_⟩
        · simp only [daysIn]
          split_ifs with hsp
          · obtain ⟨hmm, hlp⟩ := hsp
            subst hmm
            norm_num [dB0, dB1, dB2, dB3, dB4, dB5, dB6, dB7, dB8, dB9, dB10, dB11, dB12] at hd2 ⊢
            omega
          · exact hd2
        · rw [dateToAbs_of_valid _ _ _ hm1 hm2]
          rw [if_neg (by rintro ⟨_, hx⟩; omega)]
          omega
  · rw [if_neg hL] at h
    have hD364 : D ≤ 364 := by
      by_contra hcon
      exact hL (hleap365 (by omega))
    obtain ⟨hy, hm1, hm2, hd1, hd2, heq, h59m, h58m⟩ :=
      mkMonthDay_spec Y D y m d hyd0 hD364 h
    subst hy
    refine ⟨hm1, hm2, hd1, ?_, ?_⟩
    · simp only [daysIn]
      split_ifs with hsp
      · exact absurd hsp.2 hL
      · exact hd2
    · rw [dateToAbs_of_valid _ _ _ hm1 hm2]
      rw [if_neg (by rintro ⟨hx, _⟩; exact hL hx)]
      omega

theorem daysBefore_nonneg (m : Int) : 0 ≤ daysBefore m := by
  unfold daysBefore
  rcases Nat.lt_or_ge m.toNat 13 with h | h
  · set k := m.toNat with hk
    clear hk
    interval_cases k <;> norm_num
  · rw [List.getD_eq_default]
    norm_num
    exact h

theorem daysBefore_mono {a b : Int} (h0 : 0 ≤ a) (h : a ≤ b) (h12 : b ≤ 12) :
    daysBefore a ≤ daysBefore b := by
  unfold daysBefore
  have ha : a.toNat ≤ b.toNat := by omega
  have hb : b.toNat ≤ 12 := by omega
  set x := a.toNat with hx
  set y := b.toNat with hy
  clear hx hy
  interval_cases y <;> interval_cases x <;> norm_num

theorem dBY_succ (y : Int) :
    daysBeforeYear (y + 1) = daysBeforeYear y + 365 + (if isLeap y = true then 1 else 0) := by
  simp only [daysBeforeYear, isLeap, Bool.and_eq_true, beq_iff_eq, Bool.or_eq_true, bne_iff_ne,
    ne_eq]
  split_ifs with h <;> omega

theorem dBY_mono {a b : Int} (h : a ≤ b) : daysBeforeYear a ≤ daysBeforeYear b := by
  unfold daysBeforeYear
  omega

theorem adj_bounds (y m : Int) :
    (0 : Int) ≤ (if isLeap y = true ∧ 3 ≤ m then 1 else 0) ∧
      (if isLeap y = true ∧ 3 ≤ m then (1 : Int) else 0) ≤ (if isLeap y = true then 1 else 0) ∧
      (if isLeap y = true then (1 : Int) else 0) ≤ 1 := by
  split_ifs <;> simp_all

theorem monthStart_add_daysIn (y m : Int) (h1 : 1 ≤ m) (h2 : m ≤ 12) :
    daysBefore (m - 1) + (if isLeap y = true ∧ 3 ≤ m then 1 else 0) + daysIn m y =
      daysBefore m + (if isLeap y = true ∧ 3 ≤ m + 1 then 1 else 0) := by
  unfold daysIn
  by_cases hL : isLeap y = true <;>
    simp only [hL, true_and, false_and, if_false] <;>
    interval_cases m <;>
    norm_num [dB0, dB1, dB2, dB3, dB4, dB5, dB6, dB7, dB8, dB9, dB10, dB11, dB12]

theorem monthStart_mono (y : Int) {m1 m2 : Int} (h1 : 1 ≤ m1) (h2 : m1 ≤ m2) (h3 : m2 ≤ 13) :
    daysBefore (m1 - 1) + (if isLeap y = true ∧ 3 ≤ m1 then 1 else 0) ≤
      daysBefore (m2 - 1) + (if isLeap y = true ∧ 3 ≤ m2 then 1 else 0) := by
  by_cases hL : isLeap y = true
  · simp only [hL, true_and]
    have hb1 := daysBefore_mono (show (0 : Int) ≤ m1 - 1 by omega)
      (show m1 - 1 ≤ m2 - 1 by omega) (show m2 - 1 ≤ 12 by omega)
    split_ifs <;> omega
  · simp only [hL, Bool.false_eq_true, false_and, if_false, add_zero]
    exact daysBefore_mono (show (0 : Int) ≤ m1 - 1 by omega) (show m1 - 1 ≤ m2 - 1 by omega)
      (show m2 - 1 ≤ 12 by omega)

theorem daysBefore_le365 (m : Int) : daysBefore m ≤ 365 := by
  unfold daysBefore
  rcases Nat.lt_or_ge m.toNat 13 with h | h
  · set k := m.toNat with hk
    clear hk
    interval_cases k <;> norm_num
  · rw [List.getD_eq_default]
    norm_num
    exact h

theorem daysBefore_arg_succ (m : Int) : daysBefore (m + 1 - 1) = daysBefore m := by
  norm_num

theorem dateToAbs_day_diff (y m a b : Int) :
    dateToAbs y m a = dateToAbs y m b + (a - b) := by
  unfold dateToAbs
  simp only []
  ring

theorem dateToAbs_within (y m d : Int)
    (hv : 1 ≤ m ∧ m ≤ 12 ∧ 1 ≤ d ∧ d ≤ daysIn m y) :
    daysBeforeYear y ≤ dateToAbs y m d ∧ dateToAbs y m d < daysBeforeYear (y + 1) := by
  obtain ⟨hm1, hm2, hd1, hd2⟩ := hv
  rw [dateToAbs_of_valid y m d hm1 hm2, dBY_succ]
  have e1 := monthStart_add_daysIn y m hm1 hm2
  have hA1 : (if isLeap y = true ∧ 3 ≤ m + 1 then 1 else 0 : Int) ≤
      (if isLeap y = true then 1 else 0) := (adj_bounds y (m + 1)).2.1
  have a1 := adj_bounds y m
  have a2 := daysBefore_nonneg (m - 1)
  have a3 := daysBefore_le365 m
  omega

theorem dateToAbs_inj (y1 m1 d1 y2 m2 d2 : Int)
    (hv1 : 1 ≤ m1 ∧ m1 ≤ 12 ∧ 1 ≤ d1 ∧ d1 ≤ daysIn m1 y1)
    (hv2 : 1 ≤ m2 ∧ m2 ≤ 12 ∧ 1 ≤ d2 ∧ d2 ≤ daysIn m2 y2)
    (heq : dateToAbs y1 m1 d1 = dateToAbs y2 m2 d2) :
    y1 = y2 ∧ m1 = m2 ∧ d1 = d2 := by
  have hw1 := dateToAbs_within y1 m1 d1 hv1
  have hw2 := dateToAbs_within y2 m2 d2 hv2
  have hy : y1 = y2 := by
    rcases lt_trichotomy y1 y2 with h | h | h
    · have := dBY_mono (show y1 + 1 ≤ y2 by omega)
      omega
    · exact h
    · have := dBY_mono (show y2 + 1 ≤ y1 by omega)
      omega
  subst hy
  obtain ⟨hm1a, hm1b, hd1a, hd1b⟩ := hv1
  obtain ⟨hm2a, hm2b, hd2a, hd2b⟩ := hv2
  rw [dateToAbs_of_valid y1 m1 d1 hm1a hm1b, dateToAbs_of_valid y1 m2 d2 hm2a hm2b] at heq
  have hm : m1 = m2 := by
    rcases lt_trichotomy m1 m2 with h | h | h
    · have e1 := monthStart_add_daysIn y1 m1 hm1a hm1b
      have e2 := monthStart_mono y1 (show (1 : Int) ≤ m1 + 1 by omega)
        (show m1 + 1 ≤ m2 by omega) (by omega)
      rw [daysBefore_arg_succ] at e2
      omega
    · exact h
    · have e1 := monthStart_add_daysIn y1 m2 hm2a hm2b
      have e2 := monthStart_mono y1 (show (1 : Int) ≤ m2 + 1 by omega)
        (show m2 + 1 ≤ m1 by omega) (by omega)
      rw [daysBefore_arg_succ] at e2
      omega
  subst hm
  exact ⟨rfl, rfl, by omega⟩

theorem absToDate_dateToAbs (y m d : Int)
    (hv : 1 ≤ m ∧ m ≤ 12 ∧ 1 ≤ d ∧ d ≤ daysIn m y) :
    absToDate (dateToAbs y m d) = (y, m, d) := by
  obtain ⟨y2, m2, d2, hA⟩ : ∃ a b c, absToDate (dateToAbs y m d) = (a, b, c) := ⟨_, _, _, rfl⟩
  obtain ⟨hm1, hm2, hd1, hd2, heq⟩ := absToDate_spec _ _ _ _ hA
  obtain ⟨e1, e2, e3⟩ := dateToAbs_inj y2 m2 d2 y m d ⟨hm1, hm2, hd1, hd2⟩ hv heq
  rw [hA, e1, e2, e3]

theorem day_valid (t : Int) :
    1 ≤ Month t ∧ Month t ≤ 12 ∧ 1 ≤ Day t ∧ Day t ≤ daysIn (Month t) (Year t) := by
  obtain ⟨h1, h2, h3, h4, _⟩ := absToDate_spec t (Year t) (Month t) (Day t) rfl
  exact ⟨h1, h2, h3, h4⟩

theorem dateToAbs_proj (t : Int) : dateToAbs (Year t) (Month t) (Day t) = t :=
  (absToDate_spec t (Year t) (Month t) (Day t) rfl).2.2.2.2

theorem AddDate_days (t k : Int) : AddDate t 0 0 k = t + k := by
  unfold AddDate
  rw [add_zero, add_zero, dateToAbs_day_diff (Year t) (Month t) (Day t + k) (Day t),
    dateToAbs_proj]
  ring

/-- Interval type from `lib/common/date/date.go` (`Once` is the zero value). -/
inductive Interval where
  | Once
  | Daily
  | Weekly
  | Monthly
  | Quarterly
  | Yearly
deriving DecidableEq

/-- Translation of `date.StartOf`: first date of the interval-sized period
containing `d`. -/
def StartOf (d : Int) (p : Interval) : Int :=
  match p with
  | .Once => d
  | .Daily => d
  | .Weekly => AddDate d 0 0 (-((weekday d + 6) % 7))
  | .Monthly => dateToAbs (Year d) (Month d) 1
  | .Quarterly => dateToAbs (Year d) ((Month d - 1) / 3 * 3 + 1) 1
  | .Yearly => dateToAbs (Year d) 1 1

/-- Translation of `date.EndOf`: last date of the interval-sized period
containing `d`. -/
def EndOf (d : Int) (p : Interval) : Int :=
  match p with
  | .Once => d
  | .Daily => d
  | .Weekly => AddDate d 0 0 ((7 - weekday d) % 7)
  | .Monthly => AddDate (StartOf d .Monthly) 0 1 (-1)
  | .Quarterly => AddDate (AddDate (StartOf d .Quarterly) 0 3 0) 0 0 (-1)
  | .Yearly => dateToAbs (Year d) 12 31

theorem dateToAbs_first_of_month (y m : Int) (h1 : 1 ≤ m) (h2 : m ≤ 13) :
    dateToAbs y m 1 =
      daysBeforeYear y + daysBefore (m - 1) + (if isLeap y = true ∧ 3 ≤ m then 1 else 0) := by
  by_cases hm : m ≤ 12
  · rw [dateToAbs_of_valid y m 1 h1 hm]
    ring
  · have hm13 : m = 13 := by omega
    subst hm13
    unfold dateToAbs
    simp only []
    norm_num
    rw [dBY_succ, dB12, dB0]
    ring

theorem le_dateToAbs_first (x m : Int) (hmx : Month x + 1 ≤ m) (hm13 : m ≤ 13) :
    x + 1 ≤ dateToAbs (Year x) m 1 := by
  obtain ⟨a1, a2, a3, a4⟩ := day_valid x
  have hproj := dateToAbs_proj x
  rw [dateToAbs_of_valid (Year x) (Month x) (Day x) a1 a2] at hproj
  rw [dateToAbs_first_of_month (Year x) m (by omega) hm13]
  have e1 := monthStart_add_daysIn (Year x) (Month x) a1 a2
  have e2 := monthStart_mono (Year x) (show (1 : Int) ≤ Month x + 1 by omega) hmx hm13
  rw [daysBefore_arg_succ] at e2
  omega

theorem startOf_le (d : Int) (p : Interval) : StartOf d p ≤ d := by
  obtain ⟨a1, a2, a3, a4⟩ := day_valid d
  have hproj := dateToAbs_proj d
  cases p with
  | Once => exact le_refl d
  | Daily => exact le_refl d
  | Weekly =>
    rw [StartOf, AddDate_days]
    have : 0 ≤ (weekday d + 6) % 7 := Int.emod_nonneg _ (by norm_num)
    omega
  | Monthly =>
    rw [StartOf]
    rw [dateToAbs_day_diff (Year d) (Month d) 1 (Day d), hproj]
    omega
  | Quarterly =>
    rw [StartOf]
    have hq1 : 1 ≤ (Month d - 1) / 3 * 3 + 1 := by omega
    have hq2 : (Month d - 1) / 3 * 3 + 1 ≤ Month d := by omega
    rw [dateToAbs_of_valid (Year d) _ 1 hq1 (by omega)]
    rw [dateToAbs_of_valid (Year d) (Month d) (Day d) a1 a2] at hproj
    have e2 := monthStart_mono (Year d) (show (1 : Int) ≤ (Month d - 1) / 3 * 3 + 1 from hq1)
      hq2 (by omega)
    omega
  | Yearly =>
    rw [StartOf]
    rw [dateToAbs_of_valid (Year d) 1 1 (by norm_num) (by norm_num)]
    rw [dateToAbs_of_valid (Year d) (Month d) (Day d) a1 a2] at hproj
    have e2 := monthStart_mono (Year d) (show (1 : Int) ≤ 1 by norm_num)
      (show (1 : Int) ≤ Month d from a1) (by omega)
    omega

theorem daysIn_pos (m y : Int) (h1 : 1 ≤ m) (h2 : m ≤ 12) : 1 ≤ daysIn m y := by
  unfold daysIn
  split_ifs with h
  · norm_num
  · interval_cases m <;>
      norm_num [dB0, dB1, dB2, dB3, dB4, dB5, dB6, dB7, dB8, dB9, dB10, dB11, dB12]

theorem startOf_proj (d : Int) (m : Int) (h1 : 1 ≤ m) (h2 : m ≤ 12) :
    absToDate (dateToAbs (Year d) m 1) = (Year d, m, 1) :=
  absToDate_dateToAbs (Year d) m 1 ⟨h1, h2, le_refl 1, daysIn_pos m (Year d) h1 h2⟩

theorem endOf_ge (d : Int) (p : Interval) : d ≤ EndOf d p := by
  obtain ⟨a1, a2, a3, a4⟩ := day_valid d
  have hproj := dateToAbs_proj d
  cases p with
  | Once => exact le_refl d
  | Daily => exact le_refl d
  | Weekly =>
    rw [EndOf, AddDate_days]
    have : 0 ≤ (7 - weekday d) % 7 := Int.emod_nonneg _ (by norm_num)
    omega
  | Monthly =>
    rw [EndOf]
    unfold AddDate
    have hS := startOf_proj d (Month d) a1 a2
    rw [StartOf, show Year (dateToAbs (Year d) (Month d) 1) = Year d from by
        rw [Year, hS],
      show Month (dateToAbs (Year d) (Month d) 1) = Month d from by rw [Month, hS],
      show Day (dateToAbs (Year d) (Month d) 1) = 1 from by rw [Day, hS]]
    rw [add_zero]
    rw [dateToAbs_day_diff (Year d) (Month d + 1) (1 + -1) 1]
    rw [dateToAbs_first_of_month (Year d) (Month d + 1) (by omega) (by omega)]
    rw [dateToAbs_of_valid (Year d) (Month d) (Day d) a1 a2] at hproj
    have e1 := monthStart_add_daysIn (Year d) (Month d) a1 a2
    rw [show Month d + 1 - 1 = Month d from by ring] at *
    omega
  | Quarterly =>
    rw [EndOf, StartOf]
    rw [AddDate_days]
    have hq1 : 1 ≤ (Month d - 1) / 3 * 3 + 1 := by omega
    have hq2 : (Month d - 1) / 3 * 3 + 1 ≤ Month d := by omega
    have hq3 : Month d ≤ (Month d - 1) / 3 * 3 + 3 := by omega
    have hS := startOf_proj d ((Month d - 1) / 3 * 3 + 1) hq1 (by omega)
    unfold AddDate
    rw [show Year (dateToAbs (Year d) ((Month d - 1) / 3 * 3 + 1) 1) = Year d from by
        rw [Year, hS],
      show Month (dateToAbs (Year d) ((Month d - 1) / 3 * 3 + 1) 1)
          = (Month d - 1) / 3 * 3 + 1 from by rw [Month, hS],
      show Day (dateToAbs (Year d) ((Month d - 1) / 3 * 3 + 1) 1) = 1 from by rw [Day, hS]]
    rw [add_zero, add_zero]
    have hfin := le_dateToAbs_first d ((Month d - 1) / 3 * 3 + 1 + 3) (by omega) (by omega)
    omega
  | Yearly =>
    rw [EndOf]
    rw [dateToAbs_of_valid (Year d) 12 31 (by norm_num) (by norm_num)]
    rw [dateToAbs_of_valid (Year d) (Month d) (Day d) a1 a2] at hproj
    have hw := dateToAbs_within (Year d) (Month d) (Day d) ⟨a1, a2, a3, a4⟩
    rw [dateToAbs_of_valid (Year d) (Month d) (Day d) a1 a2] at hw
    rw [dBY_succ] at hw
    have hdb11 : daysBefore (12 - 1) = 334 := by norm_num [dB11]
    rw [hdb11]
    have hadj : (if isLeap (Year d) = true ∧ 3 ≤ (12 : Int) then (1 : Int) else 0)
        = (if isLeap (Year d) = true then 1 else 0) := by
      split_ifs <;> simp_all
    rw [hadj]
    omega

/-- Period from `lib/common/date/date.go`. -/
structure Period where
  Start : Int
  End : Int
deriving DecidableEq, Inhabited

/-- Translation of `Period.Contains`: `!t.Before(p.Start) && !t.After(p.End)`. -/
def Period.Contains (p : Period) (t : Int) : Bool :=
  decide (p.Start ≤ t) && decide (t ≤ p.End)

/-- Partition from `lib/common/date/date.go`. -/
structure Partition where
  span : Period
  interval : Interval
  periods : List Period

/-- The backward-walking loop of `NewPartition` (latest period first): while
`end` has not moved before `period.Start` and the `last` quota is not
exhausted, clamp the interval start to `period.Start`, emit the period and
continue one day before its start. -/
def partitionPeriods (ps : Int) (interval : Interval) (last counter end_ : Int) :
    List Period :=
  if end_ < ps ∨ (counter ≥ last ∧ last > 0) then []
  else
    let start := if StartOf end_ interval < ps then ps else StartOf end_ interval
    { Start := start, End := end_ } ::
      partitionPeriods ps interval last (counter + 1) (start - 1)
termination_by (end_ - ps + 1).toNat
decreasing_by
  have h1 := startOf_le end_ interval
  split <;> omega

/-- Translation of `date.NewPartition`; the Go function panics on a zero
start time, modelled as `none`. -/
def NewPartition (period : Period) (interval : Interval) (last : Int) : Option Partition :=
  if period.Start = 0 then none
  else
    let periods :=
      if interval = .Once then [period]
      else partitionPeriods period.Start interval last 0 period.End
    let periods := periods ++ [{ Start := 0, End := AddDate period.Start 0 0 (-1) }]
    some { span := period, interval := interval, periods := periods.reverse }

/-- Loop of Go `sort.Search`: binary search for the first index in `[i, j)`
satisfying `f`, assuming `f` is monotone. -/
def searchLoop (f : Nat → Bool) (i j : Nat) : Nat :=
  if h : i < j then
    let m := (i + j) / 2
    if f m then searchLoop f i m else searchLoop f (m + 1) j
  else i
termination_by j - i

/-- Go `sort.Search(n, f)`. -/
def sortSearch (n : Nat) (f : Nat → Bool) : Nat :=
  searchLoop f 0 n

/-- Translation of `Partition.Align`: the mapper sending a date to the end
of the first period whose end is not before it, and to the zero time when
the search runs off the end of the period list. -/
def Partition.Align (part : Partition) (d : Int) : Int :=
  let index := sortSearch part.periods.length
    (fun i => !(decide ((part.periods.getD i default).End < d)))
  if index < part.periods.length then (part.periods.getD index default).End else 0

theorem searchLoop_spec (f : Nat → Bool) (n : Nat)
    (hmono : ∀ a b, a ≤ b → b < n → f a = true → f b = true) :
    ∀ fuel i j, j - i ≤ fuel → i ≤ j → j ≤ n → (∀ k, k < i → f k = false) →
      (∀ k, j ≤ k → k < n → f k = true) →
      i ≤ searchLoop f i j ∧ searchLoop f i j ≤ j ∧
        (∀ k, k < searchLoop f i j → f k = false) ∧
        (∀ k, searchLoop f i j ≤ k → k < n → f k = true) := by
  intro fuel
  induction fuel with
  | zero =>
    intro i j hfuel hij hjn hlo hhi
    have : i = j := by omega
    subst this
    rw [searchLoop]
    simp only [lt_irrefl, dite_false]
    exact ⟨le_refl i, le_refl i, hlo, hhi⟩
  | succ fu ih =>
    intro i j hfuel hij hjn hlo hhi
    rw [searchLoop]
    by_cases hlt : i < j
    · simp only [hlt, dite_true]
      by_cases hf : f ((i + j) / 2) = true
      · rw [if_pos hf]
        have := ih i ((i + j) / 2) (by omega) (by omega) (by omega) hlo
          (fun k hk hkn => hmono _ k hk hkn hf)
        exact ⟨this.1, by omega, this.2.2.1, this.2.2.2⟩
      · rw [if_neg hf]
        have hlo2 : ∀ k, k < (i + j) / 2 + 1 → f k = false := by
          intro k hk
          by_cases hki : k < i
          · exact hlo k hki
          · rcases Bool.eq_false_or_eq_true (f k) with h | h
            · exact absurd (hmono k ((i + j) / 2) (by omega) (by omega) h) hf
            · exact h
        have := ih ((i + j) / 2 + 1) j (by omega) (by omega) hjn hlo2 hhi
        exact ⟨by omega, this.2.1, this.2.2.1, this.2.2.2⟩
    · have hieq : i = j := by omega
      subst hieq
      simp only [lt_irrefl, dite_false]
      exact ⟨le_refl i, le_refl i, hlo, hhi⟩

theorem sortSearch_spec (f : Nat → Bool) (n : Nat)
    (hmono : ∀ a b, a ≤ b → b < n → f a = true → f b = true) :
    sortSearch n f ≤ n ∧ (∀ k, k < sortSearch n f → f k = false) ∧
      (∀ k, sortSearch n f ≤ k → k < n → f k = true) := by
  have := searchLoop_spec f n hmono n 0 n (by omega) (by omega) (le_refl n)
    (by omega) (fun k hk hkn => absurd hk (by omega))
  exact ⟨this.2.1, this.2.2.1, this.2.2.2⟩

theorem partitionPeriods_spec (ps : Int) (iv : Interval) :
    ∀ fuel, ∀ c end_ : Int, (end_ - ps + 1).toNat ≤ fuel → ps ≤ end_ →
      ∃ p0 rest, partitionPeriods ps iv 0 c end_ = p0 :: rest ∧
        p0.End = end_ ∧
        (∃ plast, (p0 :: rest).getLast? = some plast ∧ plast.Start = ps) ∧
        (∀ pr ∈ p0 :: rest, ps ≤ pr.Start ∧ pr.Start ≤ pr.End ∧ pr.End ≤ end_) ∧
        List.Chain' (fun a b => b.End + 1 = a.Start) (p0 :: rest) := by
  intro fuel
  induction fuel with
  | zero =>
    intro c end_ hfuel hle
    omega
  | succ fu ih =>
    intro c end_ hfuel hle
    rw [partitionPeriods]
    rw [if_neg (by omega)]
    simp only []
    set start := if StartOf end_ iv < ps then ps else StartOf end_ iv with hstart
    have hsl : ps ≤ start ∧ start ≤ end_ := by
      have := startOf_le end_ iv
      rw [hstart]
      split <;> omega
    by_cases hrec : ps ≤ start - 1
    · obtain ⟨p0, rest, hL, hEnd, ⟨plast, hlast, hlastS⟩, hmem, hchain⟩ :=
        ih (c + 1) (start - 1) (by omega) hrec
      rw [hL]
      refine ⟨_, _, rfl, rfl, ⟨plast, ?_, hlastS⟩, ?_, ?_⟩
      · rw [List.getLast?_cons_cons]
        exact hlast
      · intro pr hpr
        rcases List.mem_cons.mp hpr with h | h
        · subst h
          exact ⟨hsl.1, hsl.2, le_refl _⟩
        · have := hmem pr h
          refine ⟨this.1, this.2.1, by omega⟩
      · refine List.chain'_cons.mpr ⟨?_, hchain⟩
        have hpp : ({ Start := start, End := end_ } : Period).Start = start := rfl
        omega
    · rw [partitionPeriods, if_pos (by omega)]
      refine ⟨_, [], rfl, rfl, ⟨{ Start := start, End := end_ }, rfl, ?_⟩, ?_, ?_⟩
      · have hpp : ({ Start := start, End := end_ } : Period).Start = start := rfl
        omega
      · intro pr hpr
        rcases List.mem_cons.mp hpr with h | h
        · subst h
          exact ⟨hsl.1, hsl.2, le_refl _⟩
        · simp at h
      · simp

theorem chain_flip_reverse (l : List Period)
    (h : List.Chain' (fun a b => b.End + 1 = a.Start) l) :
    List.Chain' (fun a b => a.End + 1 = b.Start) l.reverse := by
  rw [List.chain'_reverse]
  exact h

theorem chain_ends_lt (l : List Period)
    (hchain : List.Chain' (fun a b => a.End + 1 = b.Start) l)
    (hmem : ∀ pr ∈ l.drop 1, pr.Start ≤ pr.End) :
    List.Chain' (fun a b => a.End < b.End) l := by
  induction l with
  | nil => simp
  | cons a t iht =>
    cases t with
    | nil => simp
    | cons b t2 =>
      rw [List.chain'_cons] at hchain ⊢
      refine ⟨?_, iht hchain.2 (fun pr hpr => hmem pr (by simp at hpr ⊢; tauto))⟩
      have hb : b.Start ≤ b.End := hmem b (by simp)
      omega

theorem NewPartition_spec (p : Period) (iv : Interval) (h0 : p.Start ≠ 0)
    (hle : p.Start ≤ p.End) (hOnce : iv ≠ Interval.Once) :
    ∃ P q rest2, NewPartition p iv 0 = some P ∧
      P.span = p ∧ P.interval = iv ∧
      P.periods = { Start := 0, End := p.Start - 1 } :: q :: rest2 ∧
      q.Start = p.Start ∧
      (∃ r, P.periods.getLast? = some r ∧ r.End = p.End) ∧
      (∀ pr ∈ q :: rest2, p.Start ≤ pr.Start ∧ pr.Start ≤ pr.End ∧ pr.End ≤ p.End) ∧
      List.Chain' (fun a b => a.End + 1 = b.Start) P.periods := by
  obtain ⟨p0, rest0, hL, hEnd, ⟨plast, hlast, hlastS⟩, hmem, hchain⟩ :=
    partitionPeriods_spec p.Start iv (p.End - p.Start + 1).toNat 0 p.End (le_refl _) hle
  have hrev : ((p0 :: rest0).reverse).head? = some plast := by
    rw [List.head?_reverse]
    exact hlast
  obtain ⟨q, rest2, hqr⟩ : ∃ q rest2, (p0 :: rest0).reverse = q :: rest2 := by
    cases hc : (p0 :: rest0).reverse with
    | nil => rw [hc] at hrev; simp at hrev
    | cons a t => exact ⟨a, t, rfl⟩
  have hq : q = plast := by
    rw [hqr] at hrev
    simp at hrev
    exact hrev
  subst hq
  have hP : (if iv = Interval.Once then [p] else partitionPeriods p.Start iv 0 0 p.End)
      = p0 :: rest0 := by
    rw [if_neg hOnce, hL]
  have hPP : (((if iv = Interval.Once then [p] else partitionPeriods p.Start iv 0 0 p.End) ++
      [({ Start := 0, End := AddDate p.Start 0 0 (-1) } : Period)]).reverse)
      = ({ Start := 0, End := p.Start - 1 } : Period) :: q :: rest2 := by
    rw [hP]
    simp only [List.reverse_append, List.reverse_singleton, List.singleton_append]
    rw [AddDate_days]
    have he : p.Start + -1 = p.Start - 1 := by ring
    rw [he, hqr]
  refine ⟨Partition.mk p iv
      ((if iv = Interval.Once then [p] else partitionPeriods p.Start iv 0 0 p.End) ++
        [({ Start := 0, End := AddDate p.Start 0 0 (-1) } : Period)]).reverse, q, rest2,
    ?_, rfl, rfl, hPP, hlastS, ?_, ?_, ?_⟩
  · rw [NewPartition, if_neg h0]
  · refine ⟨p0, ?_, hEnd⟩
    simp only []
    rw [hPP, List.getLast?_cons_cons, ← hqr, List.getLast?_reverse]
    simp
  · intro pr hpr
    have : pr ∈ (p0 :: rest0).reverse := by rw [hqr]; exact hpr
    exact hmem pr (List.mem_reverse.mp this)
  · simp only []
    rw [hPP, List.chain'_cons]
    constructor
    · simp only []
      omega
    · rw [← hqr]
      exact chain_flip_reverse _ hchain

theorem contains_true_iff (pr : Period) (d : Int) :
    pr.Contains d = true ↔ (pr.Start ≤ d ∧ d ≤ pr.End) := by
  simp [Period.Contains]

theorem getD_eq_get_of_lt (L : List Period) (i : Nat) (h : i < L.length) :
    L.getD i default = L.get ⟨i, h⟩ := by
  rw [List.getD_eq_getElem?_getD, List.getElem?_eq_getElem h]
  rfl

theorem chain'_getD_adj {R : Period → Period → Prop} :
    ∀ (l : List Period), List.Chain' R l →
    ∀ k, k + 1 < l.length → R (l.getD k default) (l.getD (k + 1) default) := by
  intro l
  induction l with
  | nil =>
    intro h k hk
    simp at hk
  | cons a t ih =>
    intro h k hk
    cases t with
    | nil => simp at hk
    | cons b t2 =>
      rw [List.chain'_cons] at h
      cases k with
      | zero => simpa using h.1
      | succ k2 =>
        have := ih h.2 k2 (by simp at hk ⊢; omega)
        simpa using this

theorem chain'_getD_trans {R : Period → Period → Prop}
    (hR : ∀ a b c, R a b → R b c → R a c) (l : List Period) (h : List.Chain' R l) :
    ∀ i j, i < j → j < l.length → R (l.getD i default) (l.getD j default) := by
  intro i j
  induction j with
  | zero =>
    intro h1 h2
    omega
  | succ j2 ih =>
    intro hij hjl
    rcases Nat.lt_or_ge i j2 with h1 | h2
    · exact hR _ _ _ (ih h1 (by omega)) (chain'_getD_adj l h j2 (by omega))
    · have he : i = j2 := by omega
      subst he
      exact chain'_getD_adj l h i (by omega)

/-- C1: for a period with non-zero start not after its end and any of the
five repeating intervals, `NewPartition` yields, after the leading "before"
period, a contiguous list of periods covering exactly `[Start, End]`, and
`Align` maps every in-range date to the end of the first period whose end
is not before it (a period containing it) and every later date to the
zero-time sentinel. -/
theorem C1_partition_coverage (p : Period) (iv : Interval)
    (h0 : p.Start ≠ 0) (hle : p.Start ≤ p.End) (hOnce : iv ≠ Interval.Once) :
    ∃ P, NewPartition p iv 0 = some P ∧
      P.periods.head? = some { Start := 0, End := p.Start - 1 } ∧
      List.Chain' (fun a b => a.End + 1 = b.Start) P.periods ∧
      (P.periods.drop 1).head?.map Period.Start = some p.Start ∧
      P.periods.getLast?.map Period.End = some p.End ∧
      (∀ pr ∈ P.periods.drop 1, p.Start ≤ pr.Start ∧ pr.Start ≤ pr.End ∧ pr.End ≤ p.End) ∧
      (∀ d, p.Start ≤ d → d ≤ p.End →
        ∃ (i : Nat) (h : i < P.periods.length),
          P.Align d = (P.periods.get ⟨i, h⟩).End ∧
          (P.periods.get ⟨i, h⟩).Contains d = true ∧
          (∀ j, (hj : j < i) → (P.periods.get ⟨j, Nat.lt_trans hj h⟩).End < d)) ∧
      (∀ d, p.End < d → P.Align d = 0) := by
  obtain ⟨P, q, rest2, hNP, hspan, hiv, hper, hqS, ⟨r, hlastSome, hlastE⟩, hmem, hchain⟩ :=
    NewPartition_spec p iv h0 hle hOnce
  have hdrop : P.periods.drop 1 = q :: rest2 := by rw [hper]; rfl
  have hmem' : ∀ pr ∈ P.periods.drop 1, p.Start ≤ pr.Start ∧ pr.Start ≤ pr.End ∧ pr.End ≤ p.End := by
    rw [hdrop]; exact hmem
  have hltchain : List.Chain' (fun a b => a.End < b.End) P.periods :=
    chain_ends_lt _ hchain (fun pr hpr => (hmem' pr hpr).2.1)
  have hidxD : ∀ i j, i < j → j < P.periods.length →
      (P.periods.getD i default).End < (P.periods.getD j default).End :=
    chain'_getD_trans (R := fun a b => a.End < b.End)
      (fun a b c h1 h2 => lt_trans h1 h2) _ hltchain
  have hadjD : ∀ k, k + 1 < P.periods.length →
      (P.periods.getD k default).End + 1 = (P.periods.getD (k + 1) default).Start :=
    chain'_getD_adj (R := fun a b => a.End + 1 = b.Start) _ hchain
  have hlen : 2 ≤ P.periods.length := by rw [hper]; simp
  have hfirstD : P.periods.getD 0 default = { Start := 0, End := p.Start - 1 } := by
    rw [hper]; rfl
  have hlastD : (P.periods.getD (P.periods.length - 1) default).End = p.End := by
    have hrD : P.periods.getD (P.periods.length - 1) default = r := by
      rw [List.getD_eq_getElem?_getD, ← List.getLast?_eq_getElem?, hlastSome]
      rfl
    rw [hrD]
    exact hlastE
  refine ⟨P, hNP, ?_, hchain, ?_, ?_, hmem', ?_, ?_⟩
  · rw [hper]; rfl
  · rw [hdrop]
    simp [hqS]
  · rw [hlastSome]
    simp [hlastE]
  · intro d hd1 hd2
    set f := fun i => !(decide ((P.periods.getD i default).End < d)) with hf
    have hfc : ∀ k, (f k = true ↔ d ≤ (P.periods.getD k default).End) := by
      intro k
      simp only [hf]
      simp [Bool.not_eq_true', decide_eq_false_iff_not, not_lt]
    have hfc2 : ∀ k, (f k = false ↔ (P.periods.getD k default).End < d) := by
      intro k
      simp only [hf]
      simp [Bool.not_eq_false, decide_eq_true_eq]
    have hmono : ∀ a b, a ≤ b → b < P.periods.length → f a = true → f b = true := by
      intro a b hab hbn hfa
      rw [hfc a] at hfa
      rw [hfc b]
      rcases Nat.lt_or_ge a b with h | h
      · have := hidxD a b h hbn
        omega
      · have : a = b := by omega
        subst this
        exact hfa
    obtain ⟨hs1, hs2, hs3⟩ := sortSearch_spec f P.periods.length hmono
    have hin : sortSearch P.periods.length f < P.periods.length := by
      by_contra hcon
      have hfl : f (P.periods.length - 1) = false := hs2 _ (by omega)
      rw [hfc2] at hfl
      rw [hlastD] at hfl
      omega
    have hfi : f (sortSearch P.periods.length f) = true := hs3 _ (le_refl _) hin
    rw [hfc] at hfi
    have hi1 : 1 ≤ sortSearch P.periods.length f := by
      by_contra hcon
      have h00 : sortSearch P.periods.length f = 0 := by omega
      rw [h00, hfirstD] at hfi
      have hEnd0 : ({ Start := 0, End := p.Start - 1 } : Period).End = p.Start - 1 := rfl
      rw [hEnd0] at hfi
      omega
    have hprev : f (sortSearch P.periods.length f - 1) = false := hs2 _ (by omega)
    rw [hfc2] at hprev
    have hadj := hadjD (sortSearch P.periods.length f - 1) (by omega)
    have hix : sortSearch P.periods.length f - 1 + 1 = sortSearch P.periods.length f := by
      omega
    rw [hix] at hadj
    have hAlign : P.Align d = if sortSearch P.periods.length f < P.periods.length
        then (P.periods.getD (sortSearch P.periods.length f) default).End else 0 := rfl
    refine ⟨sortSearch P.periods.length f, hin, ?_, ?_, ?_⟩
    · rw [hAlign, if_pos hin, getD_eq_get_of_lt _ _ hin]
    · rw [← getD_eq_get_of_lt _ _ hin, contains_true_iff]
      exact ⟨by omega, hfi⟩
    · intro j hj
      rw [← getD_eq_get_of_lt _ _ (Nat.lt_trans hj hin)]
      have := hs2 j hj
      rw [hfc2] at this
      exact this
  · intro d hd
    set f := fun i => !(decide ((P.periods.getD i default).End < d)) with hf
    have hfc2 : ∀ k, (f k = false ↔ (P.periods.getD k default).End < d) := by
      intro k
      simp only [hf]
      simp [Bool.not_eq_false, decide_eq_true_eq]
    have hallf : ∀ k, k < P.periods.length → f k = false := by
      intro k hk
      rw [hfc2 k]
      rcases Nat.lt_or_ge k (P.periods.length - 1) with h | h
      · have := hidxD k (P.periods.length - 1) h (by omega)
        omega
      · have : k = P.periods.length - 1 := by omega
        subst this
        omega
    have hmono : ∀ a b, a ≤ b → b < P.periods.length → f a = true → f b = true := by
      intro a b hab hbn hfa
      have := hallf a (lt_of_le_of_lt hab hbn)
      rw [this] at hfa
      exact absurd hfa (by simp)
    obtain ⟨hs1, hs2, hs3⟩ := sortSearch_spec f P.periods.length hmono
    have hie : sortSearch P.periods.length f = P.periods.length := by
      by_contra hcon
      have hlt : sortSearch P.periods.length f < P.periods.length := by omega
      have := hs3 _ (le_refl _) hlt
      rw [hallf _ hlt] at this
      exact absurd this (by simp)
    have hAlign : P.Align d = if sortSearch P.periods.length f < P.periods.length
        then (P.periods.getD (sortSearch P.periods.length f) default).End else 0 := rfl
    rw [hAlign, hie, if_neg (by omega)]

/-- Witness for C1 at the concrete period `[1, 40]` with a monthly interval. -/
theorem C1_partition_coverage_witness :
    ((⟨1, 40⟩ : Period).Start ≠ 0 ∧ (⟨1, 40⟩ : Period).Start ≤ (⟨1, 40⟩ : Period).End ∧
      Interval.Monthly ≠ Interval.Once) ∧
    (∃ P, NewPartition ⟨1, 40⟩ Interval.Monthly 0 = some P ∧
      P.periods.head? = some { Start := 0, End := (⟨1, 40⟩ : Period).Start - 1 } ∧
      List.Chain' (fun a b => a.End + 1 = b.Start) P.periods ∧
      (P.periods.drop 1).head?.map Period.Start = some (⟨1, 40⟩ : Period).Start ∧
      P.periods.getLast?.map Period.End = some (⟨1, 40⟩ : Period).End ∧
      (∀ pr ∈ P.periods.drop 1, (⟨1, 40⟩ : Period).Start ≤ pr.Start ∧ pr.Start ≤ pr.End ∧
        pr.End ≤ (⟨1, 40⟩ : Period).End) ∧
      (∀ d, (⟨1, 40⟩ : Period).Start ≤ d → d ≤ (⟨1, 40⟩ : Period).End →
        ∃ (i : Nat) (h : i < P.periods.length),
          P.Align d = (P.periods.get ⟨i, h⟩).End ∧
          (P.periods.get ⟨i, h⟩).Contains d = true ∧
          (∀ j, (hj : j < i) → (P.periods.get ⟨j, Nat.lt_trans hj h⟩).End < d)) ∧
      (∀ d, (⟨1, 40⟩ : Period).End < d → P.Align d = 0)) :=
  ⟨⟨by decide, by decide, by decide⟩,
    C1_partition_coverage ⟨1, 40⟩ Interval.Monthly (by decide) (by decide) (by decide)⟩

/-- C9: `NewPartition` rejects (modelling the Go panic as `none`) exactly the
periods whose `Start` is the zero time, and for a non-zero `Start` not after
`End` it returns a partition whose first period is the leading "before"
period ending the day before `Start`. -/
theorem C9_newPartition_zero_start (p : Period) (iv : Interval) (last : Int) :
    (NewPartition p iv last = none ↔ p.Start = 0) ∧
    (p.Start ≠ 0 → p.Start ≤ p.End →
      ∃ P, NewPartition p iv last = some P ∧
        P.periods.head? = some { Start := 0, End := p.Start - 1 }) := by
  have hhead : ∀ (body : List Period),
      ((body ++ [({ Start := 0, End := AddDate p.Start 0 0 (-1) } : Period)]).reverse).head?
        = some ({ Start := 0, End := p.Start - 1 } : Period) := by
    intro body
    rw [List.head?_reverse, List.getLast?_concat, AddDate_days]
    have he : p.Start + -1 = p.Start - 1 := by ring
    rw [he]
  constructor
  · by_cases h : p.Start = 0
    · rw [NewPartition, if_pos h]
      simp [h]
    · rw [NewPartition, if_neg h]
      simp [h]
  · intro h0 hle
    have hsome : NewPartition p iv last = some (Partition.mk p iv
        ((if iv = Interval.Once then [p] else partitionPeriods p.Start iv last 0 p.End) ++
          [({ Start := 0, End := AddDate p.Start 0 0 (-1) } : Period)]).reverse) := by
      rw [NewPartition, if_neg h0]
    exact ⟨_, hsome, hhead _⟩

/-- Witness for C9: the zero-start period is rejected, a period starting at
day 1 is accepted with the leading before period. -/
theorem C9_newPartition_zero_start_witness :
    (NewPartition ⟨0, 5⟩ Interval.Monthly 0 = none ↔ ((⟨0, 5⟩ : Period).Start = 0)) ∧
    ((⟨1, 5⟩ : Period).Start ≠ 0 ∧ (⟨1, 5⟩ : Period).Start ≤ (⟨1, 5⟩ : Period).End) ∧
    (∃ P, NewPartition ⟨1, 5⟩ Interval.Monthly 0 = some P ∧
      P.periods.head? = some { Start := 0, End := (⟨1, 5⟩ : Period).Start - 1 }) :=
  ⟨(C9_newPartition_zero_start ⟨0, 5⟩ Interval.Monthly 0).1,
   ⟨by decide, by decide⟩,
   (C9_newPartition_zero_start ⟨1, 5⟩ Interval.Monthly 0).2 (by decide) (by decide)⟩

/-- Modelled from the spec: `date.Periods(t0, t1, interval)` is called by
`PeriodFilter.computeDates` but absent from the sources. Per the spec's
partition description, it decomposes `[t0, t1]` into contiguous
interval-sized periods, each ending at the enclosing interval's end
(`EndOf`), the next starting the following day; `Once` yields the single
period `[t0, t1]`. This is the loop, with a fuel argument bounding the
iteration count (one day of progress per step is guaranteed, so
`(t1 - t0 + 1).toNat` suffices). -/
def periodsLoop (interval : Interval) (t1 : Int) : Nat → Int → List Period
  | 0, _ => []
  | fuel + 1, t =>
    if t1 < t then []
    else { Start := t, End := EndOf t interval } ::
      periodsLoop interval t1 fuel (EndOf t interval + 1)

/-- Modelled from the spec: `date.Periods(t0, t1, interval)`. -/
def Periods (t0 t1 : Int) (interval : Interval) : List Period :=
  if interval = .Once then [{ Start := t0, End := t1 }]
  else periodsLoop interval t1 (t1 - t0 + 1).toNat t0

/-- The day record consumed by the period filter (`ast.Day`), with the
amount maps abstracted to a value type `V` and only the transaction count
retained from the transaction list. Named `PDay` because `Day` is taken by
the date accessor. -/
structure PDay (V : Type) where
  Date : Int
  Transactions : Nat
  Amounts : V
  Value : V
deriving DecidableEq

/-- The period aggregate emitted by the period filter (`ast.Period`). -/
structure PeriodAgg (V : Type) where
  Period : Knut.Period
  Days : List (PDay V)
  Amounts : V
  Values : V
  PrevAmounts : V
  PrevValues : V
deriving DecidableEq

/-- Configuration of `process.PeriodFilter`. -/
structure PeriodFilter where
  From : Int
  To : Int
  Interval : Interval
  Last : Int

/-- The loop state of `PeriodFilter.Process`. -/
structure PFState (V : Type) where
  periods : List Period
  days : List (PDay V)
  current : Nat
  init : Bool
  previous : PDay V
  latest : PDay V

/-- `new(ast.Day)`: the zero day, with `z` standing for the nil amount map. -/
def PDay.mkZero {V : Type} (z : V) : PDay V := ⟨0, 0, z, z⟩

/-- Translation of the inner `for` loop of `PeriodFilter.Process`: while
`current` is in range and (input is exhausted, or the current period ends
before the incoming day) emit the current period with the buffered days and
the carried-forward snapshots, reset the buffer, and advance. `bound` is
`none` when the input is exhausted (`!ok`). Fuel `ps.length - current`
always suffices. Returns (emitted, current, days, previous). -/
def catchUp {V : Type} (ps : List Period) (bound : Option Int) :
    Nat → Nat → List (PDay V) → PDay V → PDay V →
      List (PeriodAgg V) × Nat × List (PDay V) × PDay V
  | 0, current, days, previous, _ => ([], current, days, previous)
  | fuel + 1, current, days, previous, latest =>
    if (decide (current < ps.length) &&
        bound.all (fun dd => decide ((ps.getD current default).End < dd))) = true then
      let pr := ps.getD current default
      let agg : PeriodAgg V :=
        ⟨pr, days, latest.Amounts, latest.Value, previous.Amounts, previous.Value⟩
      let res := catchUp ps bound fuel (current + 1) [] latest latest
      (agg :: res.1, res.2.1, res.2.2.1, res.2.2.2)
    else ([], current, days, previous)

/-- The `pf.Last > 0` truncation at the end of `PeriodFilter.computeDates`:
keep only the trailing `last` periods (all of them when fewer). -/
def lastTrunc (last : Int) (dates : List Period) : List Period :=
  if 0 < last then
    if last.toNat < dates.length then
      dates.drop (dates.length -
        (if dates.length < last.toNat then dates.length else last.toNat))
    else dates
  else dates

/-- Translation of `PeriodFilter.computeDates`; `today` stands for
`date.Today()`, and `t` is the first transaction day's date. -/
def PeriodFilter.computeDates (pf : PeriodFilter) (today t : Int) : List Period :=
  lastTrunc pf.Last
    (Periods (if pf.From < t then t else pf.From) (if pf.To = 0 then today else pf.To)
      pf.Interval)

/-- One iteration of the outer loop of `PeriodFilter.Process` for a popped
day (`ok = true`): skip pre-activity days before initialisation, initialise
the period list on the first day carrying a transaction, run the catch-up
loop, then buffer or skip the day. Returns the emitted aggregates and the
new state. -/
def PeriodFilter.step {V : Type} (pf : PeriodFilter) (today : Int) (z : V)
    (st : PFState V) (day : PDay V) : List (PeriodAgg V) × PFState V :=
  if st.init = false ∧ day.Transactions = 0 then ([], st)
  else
    let st1 : PFState V :=
      if st.init = false then
        { st with periods := pf.computeDates today day.Date,
                  previous := PDay.mkZero z, latest := day, init := true }
      else st
    let res := catchUp st1.periods (some day.Date) (st1.periods.length - st1.current)
      st1.current st1.days st1.previous st1.latest
    let st2 : PFState V :=
      if res.2.1 < st1.periods.length then
        if (st1.periods.getD res.2.1 default).Contains day.Date then
          { st1 with current := res.2.1, days := res.2.2.1 ++ [day],
                     previous := res.2.2.2, latest := day }
        else
          { st1 with current := res.2.1, days := res.2.2.1, previous := day, latest := day }
      else
        { st1 with current := res.2.1, days := res.2.2.1, previous := res.2.2.2 }
    (res.1, st2)

/-- The outer loop of `PeriodFilter.Process` over the remaining input; at
the end of input (`ok = false`) the catch-up loop drains every remaining
period, so trailing periods with no activity still emit the carried-forward
snapshots. -/
def PeriodFilter.run {V : Type} (pf : PeriodFilter) (today : Int) (z : V) :
    PFState V → List (PDay V) → List (PeriodAgg V)
  | st, [] =>
    (catchUp st.periods none (st.periods.length - st.current)
      st.current st.days st.previous st.latest).1
  | st, day :: rest =>
    let res := PeriodFilter.step pf today z st day
    res.1 ++ PeriodFilter.run pf today z res.2 rest

/-- The initial state of `PeriodFilter.Process`. -/
def PFInit {V : Type} (z : V) : PFState V :=
  ⟨[], [], 0, false, PDay.mkZero z, PDay.mkZero z⟩

/-- Translation of `PeriodFilter.Process` as a pure function from the input
day list to the emitted period aggregates. -/
def PeriodFilter.Process {V : Type} (pf : PeriodFilter) (today : Int) (z : V)
    (input : List (PDay V)) : List (PeriodAgg V) :=
  PeriodFilter.run pf today z (PFInit z) input

/-- C2: the concrete period-filter scenario of the spec (monthly interval,
to 2022-01-10, last 5, transactions on 2021-01-01 with snapshot 100 and on
2022-01-01 / 2022-01-04 with cumulative snapshot 300): exactly five monthly
aggregates are emitted, ending on the last days of 2021-09 through 2022-01,
with carried-forward snapshot values 100, 100, 100, 100, 300 — a period
with no new activity emits the last known snapshot, not zero. -/
theorem C2_period_filter_carry_forward :
    (PeriodFilter.Process ⟨0, dateToAbs 2022 1 10, Interval.Monthly, 5⟩ 0 (0 : Int)
        [⟨dateToAbs 2021 1 1, 1, 0, 100⟩,
         ⟨dateToAbs 2022 1 1, 1, 0, 200⟩,
         ⟨dateToAbs 2022 1 4, 1, 0, 300⟩]).map
      (fun a => (a.Period.End, a.Values)) =
    [(dateToAbs 2021 9 30, 100), (dateToAbs 2021 10 31, 100),
     (dateToAbs 2021 11 30, 100), (dateToAbs 2021 12 31, 100),
     (dateToAbs 2022 1 31, 300)] := by decide

theorem periodsLoop_start_ge (iv : Interval) (t1 : Int) :
    ∀ (fuel : Nat) (t t0 : Int), t0 ≤ t →
      ∀ pr ∈ periodsLoop iv t1 fuel t, t0 ≤ pr.Start := by
  intro fuel
  induction fuel with
  | zero =>
    intro t t0 h pr hpr
    simp [periodsLoop] at hpr
  | succ n ih =>
    intro t t0 h pr hpr
    by_cases hc : t1 < t
    · simp [periodsLoop, hc] at hpr
    · simp only [periodsLoop, if_neg hc, List.mem_cons] at hpr
      rcases hpr with h1 | h1
      · rw [h1]
        exact h
      · have he := endOf_ge t iv
        exact ih _ t0 (by omega) pr h1

theorem Periods_start_ge (t0 t1 : Int) (iv : Interval) :
    ∀ pr ∈ Periods t0 t1 iv, t0 ≤ pr.Start := by
  intro pr hpr
  rw [Periods] at hpr
  split at hpr
  · simp at hpr
    rw [hpr]
  · exact periodsLoop_start_ge iv t1 _ t0 t0 (le_refl _) pr hpr

theorem lastTrunc_sub (last : Int) (l : List Period) :
    ∀ pr ∈ lastTrunc last l, pr ∈ l := by
  intro pr hpr
  by_cases h1 : 0 < last
  · rw [lastTrunc, if_pos h1] at hpr
    by_cases h2 : last.toNat < l.length
    · rw [if_pos h2] at hpr
      exact List.mem_of_mem_drop hpr
    · rw [if_neg h2] at hpr
      exact hpr
  · rw [lastTrunc, if_neg h1] at hpr
    exact hpr

theorem computeDates_start_ge (pf : PeriodFilter) (today t : Int) :
    ∀ pr ∈ pf.computeDates today t, pf.From ≤ pr.Start ∧ t ≤ pr.Start := by
  intro pr hpr
  rw [PeriodFilter.computeDates] at hpr
  have hmem := lastTrunc_sub _ _ pr hpr
  have hge := Periods_start_ge _ _ _ pr hmem
  split at hge <;> omega

/-- C3: the period-filter stage skips incoming days until the first day
carrying a transaction; on that day the period list is computed with the
lower bound clamped to the maximum of the configured `From` and the day's
date, so no generated period starts before the first real activity. -/
theorem C3_skip_and_clamp :
    (∀ (pf : PeriodFilter) (today : Int) (z : Int) (day : PDay Int)
        (rest : List (PDay Int)), day.Transactions = 0 →
      pf.Process today z (day :: rest) = pf.Process today z rest) ∧
    (∀ (pf : PeriodFilter) (today : Int) (z : Int) (day : PDay Int),
      day.Transactions ≠ 0 →
      (PeriodFilter.step pf today z (PFInit z) day).2.periods =
        pf.computeDates today day.Date) ∧
    (∀ (pf : PeriodFilter) (today t : Int) (pr : Period),
      pr ∈ pf.computeDates today t → pf.From ≤ pr.Start ∧ t ≤ pr.Start) := by
  refine ⟨?_, ?_, ?_⟩
  · intro pf today z day rest h
    show (PeriodFilter.step pf today z (PFInit z) day).1 ++
      PeriodFilter.run pf today z (PeriodFilter.step pf today z (PFInit z) day).2 rest = _
    rw [PeriodFilter.step, if_pos ⟨rfl, h⟩]
    rfl
  · intro pf today z day h
    rw [PeriodFilter.step, if_neg (by simp [PFInit, h])]
    dsimp only []
    repeat' split
    all_goals try rfl
    all_goals simp [PFInit] at *
  · intro pf today t pr hpr
    exact computeDates_start_ge pf today t pr hpr

/-- Witness for C3: a transaction-free day is dropped, the first transacting
day fixes the period list with the clamped lower bound, and a concrete
member of the computed list starts no earlier than the clamp. -/
theorem C3_skip_and_clamp_witness :
    ((⟨5, 0, 0, 0⟩ : PDay Int).Transactions = 0 ∧
      PeriodFilter.Process ⟨0, 40, Interval.Monthly, 0⟩ 0 (0 : Int) [⟨5, 0, 0, 0⟩] =
        PeriodFilter.Process ⟨0, 40, Interval.Monthly, 0⟩ 0 (0 : Int) []) ∧
    ((⟨5, 1, 0, 100⟩ : PDay Int).Transactions ≠ 0 ∧
      (PeriodFilter.step ⟨0, 40, Interval.Monthly, 0⟩ 0 (0 : Int) (PFInit 0)
          ⟨5, 1, 0, 100⟩).2.periods =
        PeriodFilter.computeDates ⟨0, 40, Interval.Monthly, 0⟩ 0 5) ∧
    (({ Start := 5, End := 30 } : Period) ∈
        PeriodFilter.computeDates ⟨0, 40, Interval.Monthly, 0⟩ 0 5 ∧
      (0 : Int) ≤ 5 ∧ (5 : Int) ≤ 5) :=
  ⟨⟨rfl, C3_skip_and_clamp.1 ⟨0, 40, Interval.Monthly, 0⟩ 0 0 ⟨5, 0, 0, 0⟩ [] rfl⟩,
   ⟨by decide, C3_skip_and_clamp.2.1 ⟨0, 40, Interval.Monthly, 0⟩ 0 0 ⟨5, 1, 0, 100⟩ (by decide)⟩,
   ⟨by decide, C3_skip_and_clamp.2.2 ⟨0, 40, Interval.Monthly, 0⟩ 0 5 ⟨5, 30⟩ (by decide)⟩⟩

/-- Modelled from the spec: `model.Account` (package absent from the
sources) as used by the report aggregator — an account carries an ordered
type (Assets < Liabilities < Equity < Income < Expenses, modelled as `Int`)
and a name. -/
structure Account where
  Type_ : Int
  Name : String
deriving DecidableEq

/-- Modelled from the spec: `journal2.Key` (package absent from the
sources) as used by the report aggregator — the amount key carries a
nil-able account and a nil-able valuation commodity. -/
structure Key where
  Account : Option Account
  Valuation : Option String
deriving DecidableEq

/-- Modelled from the spec: account types are ordered with Assets and
Liabilities first; `IsAL` selects those two. -/
def Account.IsAL (a : Account) : Bool :=
  decide (a.Type_ ≤ 1)

/-- `Amounts.Add`: accumulate `v` under key `k` in the amount map, modelled
as an association list over exact rationals. -/
def amountsAdd (ams : List (Key × ℚ)) (k : Key) (v : ℚ) : List (Key × ℚ) :=
  match ams with
  | [] => [(k, v)]
  | (k2, v2) :: rest => if k2 = k then (k2, v2 + v) :: rest else (k2, v2) :: amountsAdd rest k v

/-- `Amounts.SumOver`: the sum of the amounts whose key satisfies the
predicate. -/
def sumOver (ams : List (Key × ℚ)) (p : Key → Bool) : ℚ :=
  ((ams.filter (fun kv => p kv.1)).map (fun kv => kv.2)).sum

/-- `report.Node`: the report tree node — the account (nil at the two
roots), the children map modelled as an association list, the directly
posted amounts, and the display weight. The Go weight is a `float64`
(conversion noted as intentional by the spec); it is modelled as an exact
rational. -/
inductive Node where
  | mk (Account : Option Knut.Account) (children : List (Knut.Account × Node))
      (Amounts : List (Key × ℚ)) (weight : ℚ)

def Node.Account : Node → Option Knut.Account
  | .mk a _ _ _ => a

def Node.children : Node → List (Knut.Account × Node)
  | .mk _ c _ _ => c

def Node.Amounts : Node → List (Key × ℚ)
  | .mk _ _ am _ => am

def Node.weight : Node → ℚ
  | .mk _ _ _ w => w

/-- `newNode(a)`. -/
def newNode (a : Option Account) : Node :=
  .mk a [] [] 0

/-- Translation of `Node.computeWeights`: recursively compute the
children's weights, then set the node's weight to the negated absolute
value of the sum of its directly posted valued amounts (keys with a
non-nil valuation) plus the sum of the children's weights. -/
def Node.computeWeights : Node → Node
  | .mk acc children ams _ =>
    let newCh := children.attach.map (fun p => (p.1.1, Node.computeWeights p.1.2))
    Node.mk acc newCh ams
      (-|sumOver ams (fun k => k.Valuation.isSome)| +
        (newCh.map (fun q => q.2.weight)).sum)
decreasing_by
  obtain ⟨⟨a1, n1⟩, hp⟩ := p
  have h1 := List.sizeOf_lt_of_mem hp
  have h2 : sizeOf ((a1, n1) : Knut.Account × Node) = 1 + sizeOf a1 + sizeOf n1 := rfl
  simp only [Node.mk.sizeOf_spec]
  omega

/-- The weight invariant of the claim: a node's weight is the negated
absolute sum of its directly posted valued amounts plus the sum of its
children's weights, recursively at every node. -/
inductive WeightsOK : Node → Prop where
  | mk : ∀ (acc : Option Account) (children : List (Account × Node))
      (ams : List (Key × ℚ)) (w : ℚ),
      w = -|sumOver ams (fun k => k.Valuation.isSome)| +
        ((children.map (fun q => q.2.weight)).sum) →
      (∀ p ∈ children, WeightsOK p.2) →
      WeightsOK (.mk acc children ams w)

/-- Go `compare.Ordered`: `Less` when smaller, `Greater` when larger,
`Equal` otherwise. -/
def compareOrdered {α : Type} [LinearOrder α] (a b : α) : Ordering :=
  if a < b then .lt else if b < a then .gt else .eq

/-- The account type of a node, zero at the nil-account roots
(`compareNodes` is only ever applied to child nodes, whose account is
non-nil). -/
def Node.atype (n : Node) : Int :=
  (n.Account.map Knut.Account.Type_).getD 0

/-- The account name of a node, empty at the nil-account roots. -/
def Node.aname (n : Node) : String :=
  (n.Account.map Knut.Account.Name).getD ""

/-- Translation of `report.compareNodes`: order by account type, then by
weight, then by account name. -/
def compareNodes (n1 n2 : Node) : Ordering :=
  if n1.atype ≠ n2.atype then compareOrdered n1.atype n2.atype
  else if n1.weight ≠ n2.weight then compareOrdered n1.weight n2.weight
  else compareOrdered n1.aname n2.aname

/-- Insertion step of the sort used to model `dict.SortedValues`. -/
def insertBy (le : Node → Node → Bool) (x : Node) : List Node → List Node
  | [] => [x]
  | y :: ys => if le x y then x :: y :: ys else y :: insertBy le x ys

/-- Insertion sort used to model `dict.SortedValues`. -/
def sortBy (le : Node → Node → Bool) : List Node → List Node
  | [] => []
  | x :: xs => insertBy le x (sortBy le xs)

/-- Modelled from the spec: `dict.SortedValues` (package absent from the
sources) — the values of the children map, sorted by the comparator. -/
def SortedValues (children : List (Account × Node)) : List Node :=
  sortBy (fun a b => !(decide (compareNodes a b = Ordering.gt))) (children.map Prod.snd)

/-- Translation of `Node.Children`. -/
def Node.Children (n : Node) : List Node :=
  SortedValues n.children

/-- Association-list lookup in the children map. -/
def assocFind (ch : List (Account × Node)) (a : Account) : Option Node :=
  match ch with
  | [] => none
  | (b, n) :: rest => if b = a then some n else assocFind rest a

/-- Walks (and creates on demand) the ancestor path and adds the amount at
the leaf: the composition `Node.Leaf(ancestors)` + `Node.Insert` used by
`Report.Insert`, with the pointer-based map update written as a pure
association-list update. -/
def Node.leafInsert : Node → List Knut.Account → Key → ℚ → Node
  | .mk acc ch ams w, [], k, v => .mk acc ch (amountsAdd ams k v) w
  | .mk acc ch ams w, hd :: tl, k, v =>
    let child := ((assocFind ch hd).getD (newNode (some hd))).leafInsert tl k v
    let ch2 := if (assocFind ch hd).isSome
      then ch.map (fun p => if p.1 = hd then (p.1, child) else p)
      else ch ++ [(hd, child)]
    .mk acc ch2 ams w

/-- `report.Report`: the two root trees, the node cache (a map from
accounts to node pointers in Go, modelled — the pointed-to nodes live in
the trees — as the set of cached accounts) and the report partition. -/
structure Report where
  AL : Node
  EIE : Node
  cache : List Account
  dates : List Period

/-- Translation of `Report.Insert`, with `anc` standing for the registry's
`Accounts().Ancestors` lookup: a nil account returns immediately;
otherwise the account's leaf is created (and the account cached) on
demand, and the amount added at the leaf of the AL or EIE tree. -/
def Report.Insert (anc : Account → List Account) (r : Report) (k : Key) (v : ℚ) : Report :=
  match k.Account with
  | none => r
  | some acc =>
    let cache2 := if acc ∈ r.cache then r.cache else acc :: r.cache
    if acc.IsAL then
      { r with AL := r.AL.leafInsert (anc acc) k v, cache := cache2 }
    else
      { r with EIE := r.EIE.leafInsert (anc acc) k v, cache := cache2 }

/-- C4: after `Node.computeWeights`, every node of the resulting tree has
weight equal to the negated absolute value of the sum of its directly
posted valued amounts (keys with a non-nil valuation commodity) plus the
sum of its children's weights — children first, recursively — while the
amounts and account of the node are unchanged. -/
theorem C4_compute_weights : ∀ (n : Node), WeightsOK n.computeWeights ∧
    n.computeWeights.Amounts = n.Amounts ∧ n.computeWeights.Account = n.Account
  | .mk acc ch ams w => by
    rw [Node.computeWeights]
    refine ⟨?_, rfl, rfl⟩
    refine WeightsOK.mk _ _ _ _ rfl ?_
    intro p hp
    simp only [List.mem_map] at hp
    obtain ⟨q, hq, rfl⟩ := hp
    exact (C4_compute_weights q.1.2).1
termination_by n => sizeOf n
decreasing_by
  obtain ⟨⟨a1, n1⟩, hqq⟩ := q
  have h1 := List.sizeOf_lt_of_mem hqq
  have h2 : sizeOf ((a1, n1) : Knut.Account × Node) = 1 + sizeOf a1 + sizeOf n1 := rfl
  simp only [Node.mk.sizeOf_spec]
  omega

/-- The lexicographic (account type, weight, account name) order of the
claim. -/
def nodeLex (a b : Node) : Prop :=
  a.atype < b.atype ∨ (a.atype = b.atype ∧
    (a.weight < b.weight ∨ (a.weight = b.weight ∧ a.aname ≤ b.aname)))

theorem compareOrdered_eq_gt_iff {α : Type} [LinearOrder α] (a b : α) :
    compareOrdered a b = Ordering.gt ↔ b < a := by
  rw [compareOrdered]
  rcases lt_trichotomy a b with h | h | h
  · rw [if_pos h]
    constructor
    · intro hc
      exact absurd hc (by decide)
    · intro hc
      exact absurd h (lt_asymm hc)
  · subst h
    rw [if_neg (lt_irrefl a), if_neg (lt_irrefl a)]
    constructor
    · intro hc
      exact absurd hc (by decide)
    · intro hc
      exact absurd hc (lt_irrefl a)
  · rw [if_neg (lt_asymm h), if_pos h]
    exact ⟨fun _ => h, fun _ => rfl⟩

theorem compareNodes_not_gt_iff (a b : Node) :
    ¬(compareNodes a b = Ordering.gt) ↔ nodeLex a b := by
  rw [compareNodes, nodeLex]
  by_cases h1 : a.atype ≠ b.atype
  · rw [if_pos h1, compareOrdered_eq_gt_iff]
    constructor
    · intro h
      left
      rcases lt_or_gt_of_ne h1 with hx | hx
      · exact hx
      · exact absurd hx h
    · intro h hc
      rcases h with h | ⟨he, _⟩
      · omega
      · exact h1 he
  · push_neg at h1
    rw [if_neg (not_not_intro h1)]
    by_cases h2 : a.weight ≠ b.weight
    · rw [if_pos h2, compareOrdered_eq_gt_iff]
      constructor
      · intro h
        right
        refine ⟨h1, Or.inl ?_⟩
        rcases lt_or_gt_of_ne h2 with hx | hx
        · exact hx
        · exact absurd hx h
      · intro h hc
        rcases h with h | ⟨he, hw⟩
        · exact (ne_of_lt h) h1
        · rcases hw with hw | ⟨hwe, _⟩
          · exact lt_asymm hw hc
          · exact h2 hwe
    · push_neg at h2
      rw [if_neg (not_not_intro h2), compareOrdered_eq_gt_iff, not_lt]
      constructor
      · intro h
        right
        exact ⟨h1, Or.inr ⟨h2, h⟩⟩
      · intro h
        rcases h with h | ⟨he, hw⟩
        · exact absurd h1 (ne_of_lt h)
        · rcases hw with hw | ⟨hwe, hn⟩
          · exact absurd h2 (ne_of_lt hw)
          · exact hn

theorem le_true_iff (a b : Node) :
    (!(decide (compareNodes a b = Ordering.gt))) = true ↔ nodeLex a b := by
  rw [Bool.not_eq_true', decide_eq_false_iff_not]
  exact compareNodes_not_gt_iff a b

theorem nodeLex_total (a b : Node) : nodeLex a b ∨ nodeLex b a := by
  rw [nodeLex, nodeLex]
  rcases lt_trichotomy a.atype b.atype with h | h | h
  · exact Or.inl (Or.inl h)
  · rcases lt_trichotomy a.weight b.weight with h2 | h2 | h2
    · exact Or.inl (Or.inr ⟨h, Or.inl h2⟩)
    · rcases le_total a.aname b.aname with h3 | h3
      · exact Or.inl (Or.inr ⟨h, Or.inr ⟨h2, h3⟩⟩)
      · exact Or.inr (Or.inr ⟨h.symm, Or.inr ⟨h2.symm, h3⟩⟩)
    · exact Or.inr (Or.inr ⟨h.symm, Or.inl h2⟩)
  · exact Or.inr (Or.inl h)

theorem nodeLex_trans (a b c : Node) (h1 : nodeLex a b) (h2 : nodeLex b c) :
    nodeLex a c := by
  rw [nodeLex] at *
  rcases h1 with h1 | ⟨e1, w1⟩ <;> rcases h2 with h2 | ⟨e2, w2⟩
  · exact Or.inl (by omega)
  · exact Or.inl (by omega)
  · exact Or.inl (by omega)
  · refine Or.inr ⟨by omega, ?_⟩
    rcases w1 with w1 | ⟨we1, n1⟩ <;> rcases w2 with w2 | ⟨we2, n2⟩
    · exact Or.inl (lt_trans w1 w2)
    · exact Or.inl (we2 ▸ w1)
    · exact Or.inl (we1 ▸ w2)
    · exact Or.inr ⟨we1.trans we2, le_trans n1 n2⟩

theorem insertBy_mem (le : Node → Node → Bool) (x : Node) (l : List Node) :
    ∀ y ∈ insertBy le x l, y = x ∨ y ∈ l := by
  induction l with
  | nil =>
    intro y hy
    simp [insertBy] at hy
    exact Or.inl hy
  | cons z zs ih =>
    intro y hy
    rw [insertBy] at hy
    split at hy
    · rcases List.mem_cons.mp hy with h | h
      · exact Or.inl h
      · exact Or.inr h
    · rcases List.mem_cons.mp hy with h | h
      · exact Or.inr (h ▸ List.mem_cons_self z zs)
      · rcases ih y h with h2 | h2
        · exact Or.inl h2
        · exact Or.inr (List.mem_cons_of_mem z h2)

theorem insertBy_pairwise (le : Node → Node → Bool)
    (htot : ∀ a b, le a b = true ∨ le b a = true)
    (htrans : ∀ a b c, le a b = true → le b c = true → le a c = true)
    (x : Node) (l : List Node)
    (h : List.Pairwise (fun a b => le a b = true) l) :
    List.Pairwise (fun a b => le a b = true) (insertBy le x l) := by
  induction l with
  | nil => simp [insertBy]
  | cons z zs ih =>
    rw [insertBy]
    rcases List.pairwise_cons.mp h with ⟨hz, hzs⟩
    split
    next hle =>
      refine List.pairwise_cons.mpr ⟨?_, h⟩
      intro y hy
      rcases List.mem_cons.mp hy with h2 | h2
      · exact h2 ▸ hle
      · exact htrans x z y hle (hz y h2)
    next hle =>
      refine List.pairwise_cons.mpr ⟨?_, ih hzs⟩
      intro y hy
      rcases insertBy_mem le x zs y hy with h2 | h2
      · subst h2
        rcases htot y z with ht | ht
        · exact absurd ht hle
        · exact ht
      · exact hz y h2

theorem sortBy_pairwise (le : Node → Node → Bool)
    (htot : ∀ a b, le a b = true ∨ le b a = true)
    (htrans : ∀ a b c, le a b = true → le b c = true → le a c = true)
    (l : List Node) :
    List.Pairwise (fun a b => le a b = true) (sortBy le l) := by
  induction l with
  | nil => simp [sortBy]
  | cons x xs ih =>
    rw [sortBy]
    exact insertBy_pairwise le htot htrans x _ ih

/-- C5: `Node.Children` returns a node's children sorted ascending by
(account type, weight, account name); in particular, for two sibling
leaves of the same account type with weights -50 and -10, the node with
weight -50 comes first. -/
theorem C5_children_sorted :
    (∀ n : Node, List.Pairwise nodeLex n.Children) ∧
    ((Node.mk none
        [(⟨1, "a"⟩, Node.mk (some ⟨1, "a"⟩) [] [] (-10)),
         (⟨1, "b"⟩, Node.mk (some ⟨1, "b"⟩) [] [] (-50))]
        [] 0).Children.map Node.weight = [-50, -10]) := by
  constructor
  · intro n
    have hp := sortBy_pairwise (fun a b => !(decide (compareNodes a b = Ordering.gt)))
      (fun a b => by
        rcases nodeLex_total a b with h | h
        · exact Or.inl ((le_true_iff a b).mpr h)
        · exact Or.inr ((le_true_iff b a).mpr h))
      (fun a b c h1 h2 => (le_true_iff a c).mpr
        (nodeLex_trans a b c ((le_true_iff a b).mp h1) ((le_true_iff b c).mp h2)))
      (n.children.map Prod.snd)
    rw [Node.Children, SortedValues]
    exact hp.imp (fun h => (le_true_iff _ _).mp h)
  · decide

/-- C10: `Report.Insert` with a nil account is a no-op — the report is
returned unchanged, in particular the AL and EIE trees, the cache and the
dates are all exactly as before. -/
theorem C10_insert_nil_noop (anc : Knut.Account → List Knut.Account) (r : Report)
    (k : Key) (v : ℚ) (h : k.Account = none) :
    Report.Insert anc r k v = r ∧
    (Report.Insert anc r k v).AL = r.AL ∧ (Report.Insert anc r k v).EIE = r.EIE ∧
    (Report.Insert anc r k v).cache = r.cache ∧
    (Report.Insert anc r k v).dates = r.dates := by
  have he : Report.Insert anc r k v = r := by
    rw [Report.Insert, h]
  exact ⟨he, by rw [he], by rw [he], by rw [he], by rw [he]⟩

/-- Witness for C10 at a concrete empty report and nil-account key. -/
theorem C10_insert_nil_noop_witness :
    (⟨none, none⟩ : Key).Account = none ∧
    Report.Insert (fun _ => []) ⟨newNode none, newNode none, [], []⟩ ⟨none, none⟩ 5 =
      ⟨newNode none, newNode none, [], []⟩ :=
  ⟨rfl, (C10_insert_nil_noop (fun _ => []) ⟨newNode none, newNode none, [], []⟩
    ⟨none, none⟩ 5 rfl).1⟩

/-- The EOF sentinel of the old scanner: `rune(0)`. -/
def oldEOF : Char := Char.ofNat 0

/-- The old backtracking scanner (`scanner.Scanner`): the full text, the
reader position (index of the next rune to read), the current rune, and
the byte position. Line and column are not modelled. -/
structure OldScanner where
  text : List Char
  readerPos : Nat
  current : Char
  BytePos : Nat

/-- `scanner.New`: reads the first rune (EOF when empty), byte position 0. -/
def oldNew (text : List Char) : OldScanner :=
  { text := text, readerPos := 1, current := (text.get? 0).getD oldEOF, BytePos := 0 }

/-- Translation of `Scanner.Advance`: reads the next rune (EOF at the end,
never an error for in-memory text) and advances `BytePos` by
`utf8.RuneLen` of the current rune — which is 1 even for the EOF rune 0. -/
def oldAdvance (s : OldScanner) : OldScanner :=
  { s with
    BytePos := s.BytePos + s.current.utf8Size,
    current := (s.text.get? s.readerPos).getD oldEOF,
    readerPos := s.readerPos + 1 }

def oldAdvanceN : OldScanner → Nat → OldScanner
  | s, 0 => s
  | s, n + 1 => oldAdvanceN (oldAdvance s) n

/-- The UTF-8 byte length of the text. -/
def byteLen (text : List Char) : Nat :=
  (text.map Char.utf8Size).sum

/-- Translation of `Scanner.ReadN`: advance `n` times and slice
`text[start:BytePos]`. Go string slicing panics when the upper bound
exceeds the byte length, modelled as `none`; the slice content is given
for single-byte (ASCII) texts, where byte positions coincide with rune
indices. -/
def oldReadN (s : OldScanner) (n : Nat) : Option (List Char × OldScanner) :=
  let start := s.BytePos
  let s2 := oldAdvanceN s n
  if s2.BytePos ≤ byteLen s.text then
    some ((s.text.drop start).take (s2.BytePos - start), s2)
  else none

/-- Go `time.Parse("2006-01-02", d)` on a 10-character input: exactly four
digits, `-`, two digits, `-`, two digits, and the month and day must be a
valid calendar date (`daysIn` of the month). -/
def goParseDate10 (cs : List Char) : Option (Int × Int × Int) :=
  match cs with
  | [y1, y2, y3, y4, s1, m1, m2, s2, d1, d2] =>
    if y1.isDigit ∧ y2.isDigit ∧ y3.isDigit ∧ y4.isDigit ∧ s1 = '-' ∧
        m1.isDigit ∧ m2.isDigit ∧ s2 = '-' ∧ d1.isDigit ∧ d2.isDigit then
      let y : Int := (y1.toNat - 48) * 1000 + (y2.toNat - 48) * 100 +
        (y3.toNat - 48) * 10 + (y4.toNat - 48)
      let mo : Int := (m1.toNat - 48) * 10 + (m2.toNat - 48)
      let da : Int := (d1.toNat - 48) * 10 + (d2.toNat - 48)
      if 1 ≤ mo ∧ mo ≤ 12 ∧ 1 ≤ da ∧ da ≤ daysIn mo y then some (y, mo, da)
      else none
    else none
  | _ => none

/-- The possible outcomes of the old `Parser.parseDate`. -/
inductive DateResult where
  | date (y m d : Int)
  | parseError
  | panic
deriving DecidableEq

/-- Translation of the old `Parser.parseDate` from the start of the input:
`ReadN(10)` (whose slice panics when fewer than 10 runes remain) followed
by `time.Parse("2006-01-02", ·)`. -/
def oldParseDate (text : List Char) : DateResult :=
  match oldReadN (oldNew text) 10 with
  | none => .panic
  | some (s, _) =>
    match goParseDate10 s with
    | some (y, m, d) => .date y m d
    | none => .parseError

/-- C8: the date parser accepts exactly the 10-byte `YYYY-MM-DD` form — on
a valid 10-character date it returns the date — but on the malformed
4-byte input `"2021"` the old scanner's `ReadN` runs `BytePos` past the
end of the text (EOF runes still advance it by one byte) and the slice
`text[start:BytePos]` panics: no parse error is ever produced, diverging
from the claimed "any input not of this shape is a parse error". -/
theorem C8_parse_date_panics :
    oldParseDate ('2' :: '0' :: '2' :: '1' :: []) = DateResult.panic ∧
    (∀ y m d : Int, oldParseDate ('2' :: '0' :: '2' :: '1' :: []) ≠ DateResult.date y m d) ∧
    oldParseDate ('2' :: '0' :: '2' :: '1' :: []) ≠ DateResult.parseError ∧
    oldParseDate
        ('2' :: '0' :: '2' :: '1' :: '-' :: '0' :: '1' :: '-' :: '0' :: '1' :: []) =
      DateResult.date 2021 1 1 := by
  refine ⟨by decide, ?_, by decide, by decide⟩
  intro y m d
  intro h
  rw [show oldParseDate ('2' :: '0' :: '2' :: '1' :: []) = DateResult.panic from by decide] at h
  exact DateResult.noConfusion h

/-- A source range of the rewritten syntax parser (`syntax.Range`), as
byte offsets into the parsed text (the shared `Text` field is omitted). -/
structure Range where
  Start : Nat
  End : Nat
deriving DecidableEq

/-- `syntax.Error`: a message, the range it covers, and the wrapped inner
error, forming the nested diagnostic chain. -/
inductive Error where
  | mk (Message : String) (Range : Knut.Range) (Wrapped : Option Error)

def Error.Range : Error → Knut.Range
  | .mk _ r _ => r

/-- Wrapping of an inner parser error: the wrapper's range runs from the
enclosing production's start to the position where the inner error
occurred (the inner range's end). -/
def wrap (msg : String) (start : Nat) : Except Error Nat → Except Error Nat
  | .ok p => .ok p
  | .error e => .error (.mk msg ⟨start, e.Range.End⟩ (some e))

/-- Modelled from the spec: the rewritten parser's scanner primitive — read
one digit at `pos`, or fail with a zero-width range at the current
position. The rewritten parser itself is absent from the sources (only its
tests, in `lib/syntax/syntax.go`, are present); messages and ranges follow
those fixtures. -/
def readDigit (text : List Char) (pos : Nat) : Except Error Nat :=
  match text.get? pos with
  | none => .error (.mk "unexpected end of file, want a digit" ⟨pos, pos⟩ none)
  | some c =>
    if c.isDigit then .ok (pos + 1)
    else .error (.mk ("unexpected character `" ++ String.mk [c] ++ "`, want a digit")
      ⟨pos, pos⟩ none)

/-- Modelled from the spec: read one expected character. -/
def readChar (text : List Char) (pos : Nat) (want : Char) : Except Error Nat :=
  match text.get? pos with
  | none => .error (.mk ("unexpected end of file, want `" ++ String.mk [want] ++ "`")
      ⟨pos, pos⟩ none)
  | some c =>
    if c = want then .ok (pos + 1)
    else .error (.mk ("unexpected character `" ++ String.mk [c] ++ "`, want `" ++
      String.mk [want] ++ "`") ⟨pos, pos⟩ none)

/-- Consume characters while the predicate holds (never fails). -/
def readWhileAux (p : Char → Bool) (text : List Char) : Nat → Nat → Nat
  | 0, pos => pos
  | fuel + 1, pos =>
    match text.get? pos with
    | some c => if p c then readWhileAux p text fuel (pos + 1) else pos
    | none => pos

/-- Modelled from the spec: the rewritten parser's `parseDate` — exactly
`YYYY-MM-DD`, wrapped as "while parsing the date". -/
def parseDate (text : List Char) (pos : Nat) : Except Error Nat :=
  wrap "while parsing the date" pos (do
    let p ← readDigit text pos
    let p ← readDigit text p
    let p ← readDigit text p
    let p ← readDigit text p
    let p ← readChar text p '-'
    let p ← readDigit text p
    let p ← readDigit text p
    let p ← readChar text p '-'
    let p ← readDigit text p
    readDigit text p)

/-- Modelled from the spec: `readRestOfWhitespaceLine` — spaces up to and
including the newline (or the end of the file). -/
def readRestOfWhitespaceLine (text : List Char) (pos : Nat) : Except Error Nat :=
  let p := readWhileAux (fun c => decide (c = ' ')) text (text.length + 1) pos
  match text.get? p with
  | none => .ok p
  | some c =>
    if c = '\n' then .ok (p + 1)
    else .error (.mk ("unexpected character `" ++ String.mk [c] ++ "`, want a newline")
      ⟨p, p⟩ none)

/-- Modelled from the spec: the body of `@performance(...)` after the
keyword — the parenthesised target commodities and the rest of the line. -/
def parsePerformanceBody (text : List Char) (pos : Nat) : Except Error Nat := do
  let p ← readChar text pos '('
  let p := readWhileAux (fun c => c.isAlpha) text (text.length + 1) p
  let p ← readChar text p ')'
  readRestOfWhitespaceLine text p

/-- Modelled from the spec: the body of `@accrue ...` after the keyword —
interval, start date, end date, account, rest of the line. -/
def parseAccrualBody (text : List Char) (pos : Nat) : Except Error Nat := do
  let p ← readChar text pos ' '
  let p := readWhileAux (fun c => c.isAlpha) text (text.length + 1) p
  let p ← readChar text p ' '
  let p ← parseDate text p
  let p ← readChar text p ' '
  let p ← parseDate text p
  let p ← readChar text p ' '
  let p := readWhileAux (fun c => c.isAlpha) text (text.length + 1) p
  readRestOfWhitespaceLine text p

/-- Modelled from the spec: one `@...` annotation, with presence-flag
duplicate detection — a second `@performance` (resp. `@accrue`) fails with
"duplicate performance annotation" (resp. "duplicate accrue annotation")
ranging from the annotation's start to the end of its keyword; it never
overwrites the first. Returns the new position and updated flags. -/
def parseOneAddon (text : List Char) (pos : Nat) (sawPerf sawAccrue : Bool) :
    Except Error (Nat × Bool × Bool) :=
  let kEnd := readWhileAux (fun c => c.isAlpha) text (text.length + 1) (pos + 1)
  let kw := String.mk ((text.drop (pos + 1)).take (kEnd - (pos + 1)))
  if kw = "performance" then
    if sawPerf then .error (.mk "duplicate performance annotation" ⟨pos, kEnd⟩ none)
    else
      match parsePerformanceBody text kEnd with
      | .error e => .error e
      | .ok p => .ok (p, true, sawAccrue)
  else if kw = "accrue" then
    if sawAccrue then .error (.mk "duplicate accrue annotation" ⟨pos, kEnd⟩ none)
    else
      match parseAccrualBody text kEnd with
      | .error e => .error e
      | .ok p => .ok (p, sawPerf, true)
  else
    .error (.mk "unexpected annotation, want one of \x7b`@performance`, `@accrue`\x7d"
      ⟨pos, kEnd⟩ none)

/-- Modelled from the spec: the addon loop — as long as the current
character is `@`, parse one annotation, threading the presence flags. -/
def parseAddonsLoop (text : List Char) : Nat → Nat → Bool → Bool → Except Error Nat
  | 0, pos, _, _ => .ok pos
  | fuel + 1, pos, sawPerf, sawAccrue =>
    match text.get? pos with
    | some c =>
      if c = '@' then
        match parseOneAddon text pos sawPerf sawAccrue with
        | .error e => .error e
        | .ok (p, sp, sa) => parseAddonsLoop text fuel p sp sa
      else .ok pos
    | none => .ok pos

/-- Modelled from the spec: `parseAddons` — at least one annotation, then
the loop; failures are wrapped as "while parsing addons" from the addons
block's start. -/
def parseAddons (text : List Char) (pos : Nat) : Except Error Nat :=
  wrap "while parsing addons" pos
    (match text.get? pos with
    | none =>
      .error (.mk "unexpected end of file, want one of \x7b`@performance`, `@accrue`\x7d"
        ⟨pos, pos⟩ none)
    | some c =>
      if c = '@' then parseAddonsLoop text (text.length + 1) pos false false
      else
        .error (.mk ("unexpected character `" ++ String.mk [c] ++
          "`, want one of \x7b`@performance`, `@accrue`\x7d") ⟨pos, pos⟩ none))

/-- Modelled from the spec: one directive — optional addons, the date, and
the rest of the directive line — wrapped as "while parsing directive". -/
def parseDirective (text : List Char) (pos : Nat) : Except Error Nat :=
  wrap "while parsing directive" pos (do
    let p ← if text.get? pos = some '@' then parseAddons text pos else pure pos
    let p ← parseDate text p
    let p := readWhileAux (fun c => !(decide (c = '\n'))) text (text.length + 1) p
    pure p)

/-- Modelled from the spec: the file loop — skip whitespace lines and
comments, parse directives until the end of the input. -/
def parseFileLoop (text : List Char) : Nat → Nat → Except Error Nat
  | 0, pos => .ok pos
  | fuel + 1, pos =>
    match text.get? pos with
    | none => .ok pos
    | some c =>
      if c = '\n' ∨ c = ' ' then
        match readRestOfWhitespaceLine text pos with
        | .error e => .error e
        | .ok p => parseFileLoop text fuel p
      else if c = '*' ∨ c = '#' ∨ c = '/' then
        let p := readWhileAux (fun c2 => !(decide (c2 = '\n'))) text (text.length + 1) pos
        match text.get? p with
        | none => .ok p
        | some _ => parseFileLoop text fuel (p + 1)
      else
        match parseDirective text pos with
        | .error e => .error e
        | .ok p => parseFileLoop text fuel p

/-- Modelled from the spec: `ParseFile` — the file loop, with failures
wrapped as "while parsing file \`path\`" over the range from the file's
start to the error position. -/
def ParseFile (path : String) (text : List Char) : Except Error Nat :=
  match parseFileLoop text (text.length + 1) 0 with
  | .ok p => .ok p
  | .error e =>
    .error (.mk ("while parsing file `" ++ path ++ "`") ⟨0, e.Range.End⟩ (some e))

/-- C6: parsing `"\nasdf"` fails with the exact 4-deep error chain —
"while parsing file \`\`" wrapping "while parsing directive" wrapping
"while parsing the date" wrapping the base error "unexpected character
\`a\`, want a digit", whose range begins at byte offset 1. -/
theorem C6_parse_file_error_chain :
    ParseFile "" ('\n' :: 'a' :: 's' :: 'd' :: 'f' :: []) =
      Except.error (.mk "while parsing file ``" ⟨0, 1⟩
        (some (.mk "while parsing directive" ⟨1, 1⟩
          (some (.mk "while parsing the date" ⟨1, 1⟩
            (some (.mk "unexpected character `a`, want a digit" ⟨1, 1⟩ none))))))) := by
  rfl

/-- C7: a duplicate `@performance` (resp. `@accrue`) annotation fails with
"duplicate performance annotation" (resp. "duplicate accrue annotation"),
the error range covering the second annotation up to the end of its
keyword, wrapped in "while parsing addons" — the duplicate is detected by
presence-flags and never overwrites the first annotation. -/
theorem C7_duplicate_addons :
    parseAddons "@performance(USD)\n@performance(CHF)".toList 0 =
      Except.error (.mk "while parsing addons" ⟨0, 30⟩
        (some (.mk "duplicate performance annotation" ⟨18, 30⟩ none))) ∧
    parseAddons
        "@accrue daily 2023-01-01 2023-12-31 B\n@accrue daily 2023-01-01 2023-12-31 B".toList
        0 =
      Except.error (.mk "while parsing addons" ⟨0, 45⟩
        (some (.mk "duplicate accrue annotation" ⟨38, 45⟩ none))) := by
  exact ⟨rfl, rfl⟩

end Knut
